import Mathlib

/-!
Verification of `upgrade/helpers/tools.py`, a module of remote-host
automation helpers used during upgrade testing of Satellite/Capsule.

Shallow embedding: remote command execution (fabric's `run`/`execute`),
local process spawning (`subprocess`) and the wall clock are modelled as
explicit oracles passed to each embedded function; exceptions raised by
remote commands are modelled with `Except`/`Option`; unbounded polling
loops take the (finite) trace of observations they will make, or fuel.
-/

namespace Tools

/-! ## Effects

Observable side effects a helper can perform: running a command on a host
and sleeping the calling thread. -/

inductive Effect where
  | runCmd (host : String) (cmd : String)
  | sleep (secs : Nat)
  deriving Repr, DecidableEq

/-! ## `reboot`

```python
def reboot(halt_time=300):
    halt_time = halt_time
    logger.info('Rebooting the host, please wait .... ')
    try:
        run('reboot', warn_only=True)
    except:
        pass
    time.sleep(halt_time)
```

The remote `run('reboot', warn_only=True)` call is modelled by the oracle
`raises : Bool` telling whether it raises; its output is irrelevant. -/

/-- One remote `run` call that may raise: `.error` models a raised
exception, `.ok` a normal return with the command output. -/
def runRemote (raises : Bool) (output : String) : Except String String :=
  if raises then .error "connection dropped" else .ok output

/-- Model of `reboot`: the `try`/`except: pass` swallows any exception of
the reboot command, then the thread sleeps `halt_time` seconds. Returns
the list of effects performed and the outcome (`.ok ()` = the function
returned normally, `.error` = an exception escaped). -/
def reboot (raises : Bool) (halt_time : Nat := 300) :
    List Effect × Except String Unit :=
  match runRemote raises "" with
  | .ok _ =>
      ([.runCmd "host" "reboot", .sleep halt_time], .ok ())
  | .error _ =>
      -- except: pass — the exception is swallowed and execution continues
      ([.runCmd "host" "reboot", .sleep halt_time], .ok ())

/-! ## `host_pings`

```python
def host_pings(host, timeout=15):
    timeup = time.time() + int(timeout) * 60
    while True:
        command = subprocess.Popen(
            'ping -c1 {0}; echo $?'.format(host), ...)
        output = command.communicate()[0]
        # Checking the return code of ping is 0
        if time.time() > timeup:
            logger.warning(...)
            return False
        if int(output.split()[-1]) == 0:
            return True
        else:
            time.sleep(5)
```

Each loop iteration observes the wall clock (the value of `time.time()`
at the deadline check) and the exit code of the ping (the last token of
the captured output, echoed by `echo $?`). A run of the loop is modelled
by the finite trace of these observations. -/

/-- One iteration's observations in `host_pings`: `tNow` is the value of
`time.time()` at the deadline check, `code` the parsed ping exit code. -/
structure PingTick where
  tNow : Nat
  code : Nat
  deriving Repr, DecidableEq

/-- The `while True` loop of `host_pings`: the deadline check
(`time.time() > timeup`) comes first and returns `False`; only then is
the exit code compared with 0 to return `True`; otherwise sleep and
retry. Returns `none` when the trace is exhausted before the loop
decides. -/
def host_pings_loop (timeup : Nat) : List PingTick → Option Bool
  | [] => none
  | tick :: rest =>
      if timeup < tick.tNow then some false
      else if tick.code = 0 then some true
      else host_pings_loop timeup rest

/-- Model of `host_pings`: `t0` is `time.time()` at entry, so the
deadline is `t0 + timeout * 60`. -/
def host_pings (t0 : Nat) (ticks : List PingTick) (timeout : Nat := 15) :
    Option Bool :=
  host_pings_loop (t0 + timeout * 60) ticks

/-! ## String helpers

Models of the Python string operations the module uses: `str.lower`
(ASCII case folding suffices for the inputs involved) and the substring
test `needle in hay`. -/

/-- Model of `str.lower` on one character (ASCII case folding, which
covers every string this module handles): `'A'..'Z'` shift by 32, all
other characters are unchanged. -/
def lowerChar (c : Char) : Char :=
  if 65 ≤ c.toNat ∧ c.toNat ≤ 90 then Char.ofNat (c.toNat + 32) else c

/-- Model of `str.lower` (ASCII). -/
def strLower (s : String) : String := String.mk (s.data.map lowerChar)

/-- `isPre n h` holds when the char list `n` starts the char list `h`. -/
def isPre : List Char → List Char → Bool
  | [], _ => true
  | _ :: _, [] => false
  | a :: as, b :: bs => a == b && isPre as bs

/-- `hasSub n h`: `n` occurs as a contiguous sublist of `h`; model of
Python's `n in h` on strings. -/
def hasSub (needle : List Char) : List Char → Bool
  | [] => isPre needle []
  | c :: rest => isPre needle (c :: rest) || hasSub needle rest

/-- Model of Python `needle in hay` for strings. -/
def strIn (needle hay : String) : Bool := hasSub needle.data hay.data

/-! ## `_extract_sat_cap_version`

```python
def _extract_sat_cap_version(command):
    if command:
        cmd_result = run(command, quiet=True)
        version_re = (
            r'[^\d]*(?P<version>\d(\.\d\.*\d*){1})'
        )
        result = re.search(version_re, cmd_result)
        if result:
            version = result.group('version')
            return version, cmd_result
    return None, cmd_result
```

The regex `[^\d]*(?P<version>\d(\.\d\.*\d*){1})` under `re.search`:
the match is attempted at each start position from the left; at a given
position the greedy `[^\d]*` consumes exactly the non-digits up to the
next digit (it cannot consume a digit and backtracking it would put a
non-digit under `\d`), so the search reduces to trying, at each digit of
the text from the left, the group pattern: a digit, a literal dot, a
digit, then greedily zero or more dots, then greedily zero or more
digits (both unconstrained afterwards, hence pure maximal munch). -/

/-- Attempt of the version group `\d(\.\d\.*\d*){1}` anchored at the
head of the char list. -/
def versionMatchAt : List Char → Option (List Char)
  | c1 :: '.' :: c2 :: rest =>
      if c1.isDigit && c2.isDigit then
        let dots := rest.takeWhile (fun c => c == '.')
        let digs := (rest.dropWhile (fun c => c == '.')).takeWhile Char.isDigit
        some (c1 :: '.' :: c2 :: (dots ++ digs))
      else none
  | _ => none

/-- `re.search` of the version pattern: leftmost match of the version
group, as analysed above. -/
def searchVersion : List Char → Option (List Char)
  | [] => none
  | c :: rest =>
      match versionMatchAt (c :: rest) with
      | some v => some v
      | none => searchVersion rest

/-- Model of `_extract_sat_cap_version`. `runOut` is the oracle giving
the output of `run(command, quiet=True)`. A falsy (empty) `command`
skips the `if` body and reaches `return None, cmd_result` with
`cmd_result` unbound, a `NameError`, modelled as `.error ()`. The
matched group is returned together with the raw command output. -/
def _extract_sat_cap_version (runOut : String → String) (command : String) :
    Except Unit (Option String × String) :=
  if command ≠ "" then
    let cmd_result := runOut command
    match searchVersion cmd_result.data with
    | some v => .ok (some (String.mk v), cmd_result)
    | none => .ok (none, cmd_result)
  else .error ()

/-! ## `get_sat_cap_version`

```python
def get_sat_cap_version(product):
    if 'sat' in product.lower():
        _6_2_VERSION_COMMAND = u'rpm -q satellite'
        _LT_6_2_VERSION_COMMAND = (
            u'grep "VERSION" /usr/share/foreman/lib/satellite/version.rb'
        )
    if 'cap' in product.lower():
        _6_2_VERSION_COMMAND = u'rpm -q satellite-capsule'
        _LT_6_2_VERSION_COMMAND = 'None'
    results = (
        _extract_sat_cap_version(cmd) for cmd in
        (_6_2_VERSION_COMMAND, _LT_6_2_VERSION_COMMAND)
    )
    for version, cmd_result in results:
        if version:
            return version
    logger.warning(...)
```

The two `if`s are sequential assignments to the same pair of local
names: the `cap` branch overwrites the `sat` branch. When neither
matches, iterating `results` evaluates the tuple
`(_6_2_VERSION_COMMAND, _LT_6_2_VERSION_COMMAND)` with both names
unbound: a `NameError`, modelled as `.error ()`. -/

/-- The pair of candidate version commands for a product. -/
structure CmdPair where
  newCmd : String
  oldCmd : String
  deriving Repr, DecidableEq

/-- Commands assigned by the `'sat' in product.lower()` branch. -/
def satPair : CmdPair :=
  ⟨"rpm -q satellite",
   "grep \"VERSION\" /usr/share/foreman/lib/satellite/version.rb"⟩

/-- Commands assigned by the `'cap' in product.lower()` branch. -/
def capPair : CmdPair := ⟨"rpm -q satellite-capsule", "None"⟩

/-- The two sequential `if` statements of `get_sat_cap_version`:
`none` means the local command names are left unbound. -/
def satCapCmds (product : String) : Option CmdPair :=
  let afterSat :=
    if strIn "sat" (strLower product) then some satPair else none
  if strIn "cap" (strLower product) then some capPair else afterSat

/-- The `for version, cmd_result in results` loop over the two candidate
commands of a pair: return the first truthy version; on fall-through log
a warning and return `None`. Also returns the list of commands actually
executed. A matched version group is never the empty string, so
`if version:` is its being `some`. -/
def runPair (runOut : String → String) (pair : CmdPair) :
    Except Unit (Option String) × List String :=
  match _extract_sat_cap_version runOut pair.newCmd with
  | .error _ => (.error (), [])
  | .ok (some v, _) => (.ok (some v), [pair.newCmd])
  | .ok (none, _) =>
      match _extract_sat_cap_version runOut pair.oldCmd with
      | .error _ => (.error (), [pair.newCmd])
      | .ok (some v, _) => (.ok (some v), [pair.newCmd, pair.oldCmd])
      | .ok (none, _) => (.ok none, [pair.newCmd, pair.oldCmd])

/-- Model of `get_sat_cap_version`: result (`.error ()` = `NameError`
escapes, `.ok none` = implicit `None` return) together with the commands
executed on the host. -/
def get_sat_cap_version (runOut : String → String) (product : String) :
    Except Unit (Option String) × List String :=
  match satCapCmds product with
  | none => (.error (), [])
  | some pair => runPair runOut pair

/-! ## `copy_ssh_key`

```python
def copy_ssh_key(from_host, to_hosts):
    execute(lambda: run('mkdir -p ~/.ssh'), host=from_host)
    execute(lambda: run(
        '[ ! -f ~/.ssh/id_rsa ] || '
        'ssh-keygen -y -f ~/.ssh/id_rsa > ~/.ssh/id_rsa.pub'), host=from_host)
    execute(lambda: run(
        '[ -f ~/.ssh/id_rsa.pub ] || '
        'ssh-keygen -f ~/.ssh/id_rsa -t rsa -N \'\''), host=from_host)
    pub_key = execute(lambda: run(
        '[ ! -f ~/.ssh/id_rsa.pub ] || cat ~/.ssh/id_rsa.pub'),
        host=from_host)[from_host]
    if pub_key:
        for to_host in to_hosts:
            execute(lambda: run('mkdir -p ~/.ssh'), host=to_host)
            execute(lambda: run(
                'echo "{0}" >> ~/.ssh/authorized_keys'.format(pub_key)
            ), host=to_host)
```

`pubKey` is the oracle for the content read back by the fourth command
(a Python string; falsy means empty). The function's observable
behaviour is its trace of remote commands. -/

/-- The four commands run on the source host, in order. -/
def sourceHostCmds (from_host : String) : List Effect :=
  [.runCmd from_host "mkdir -p ~/.ssh",
   .runCmd from_host
     ("[ ! -f ~/.ssh/id_rsa ] || " ++
      "ssh-keygen -y -f ~/.ssh/id_rsa > ~/.ssh/id_rsa.pub"),
   .runCmd from_host
     ("[ -f ~/.ssh/id_rsa.pub ] || " ++
      "ssh-keygen -f ~/.ssh/id_rsa -t rsa -N ''"),
   .runCmd from_host "[ ! -f ~/.ssh/id_rsa.pub ] || cat ~/.ssh/id_rsa.pub"]

/-- Model of `copy_ssh_key`: the trace of remote commands it executes.
`if pub_key:` guards the whole propagation loop over `to_hosts`. -/
def copy_ssh_key (pubKey : String) (from_host : String)
    (to_hosts : List String) : List Effect :=
  sourceHostCmds from_host ++
    (if pubKey ≠ "" then
      to_hosts.flatMap (fun to_host =>
        [.runCmd to_host "mkdir -p ~/.ssh",
         .runCmd to_host
           ("echo \"" ++ pubKey ++ "\" >> ~/.ssh/authorized_keys")])
    else [])

/-! ## `get_hostname_from_ip`

```python
def get_hostname_from_ip(ip, timeout=3):
    timeup = time.time() + int(timeout) * 60
    while True:
        if time.time() > timeup:
            logger.warning(...)
            return False
        try:
            output = execute(lambda: run('hostname'), host=ip)
            logger.info(...)
            break
        except:
            time.sleep(5)
    return output[ip]
```

Iteration `i` observes the clock `t i` at the deadline check and the
outcome `attempt i` of the remote hostname command (`none` = the command
raised, caught by the bare `except`; `some h` = it returned `h`, the
value of `output[ip]`). The loop runs until a deadline or a success, so
it is given fuel; `none` overall means the fuel ran out before the loop
decided. -/

/-- Result of `get_hostname_from_ip`: `timedOut` models `return False`,
`hostname h` models returning the resolved name. -/
inductive GHResult where
  | timedOut
  | hostname (h : String)
  deriving Repr, DecidableEq

/-- The `while True` loop of `get_hostname_from_ip`, started at
iteration `i`: deadline check first (returning `False`), then the
guarded attempt; a raise is caught and followed by a 5s sleep and a
retry. The returned `Nat` counts the retries (sleeps) performed. -/
def get_hostname_loop (timeup : Nat) (t : Nat → Nat)
    (attempt : Nat → Option String) : Nat → Nat → Option (GHResult × Nat)
  | 0, _ => none
  | fuel + 1, i =>
      if timeup < t i then some (.timedOut, i)
      else
        match attempt i with
        | some h => some (.hostname h, i)
        | none => get_hostname_loop timeup t attempt fuel (i + 1)

/-- Model of `get_hostname_from_ip`: deadline `t0 + timeout * 60`, loop
from iteration 0. -/
def get_hostname_from_ip (t0 : Nat) (t : Nat → Nat)
    (attempt : Nat → Option String) (fuel : Nat) (timeout : Nat := 3) :
    Option (GHResult × Nat) :=
  get_hostname_loop (t0 + timeout * 60) t attempt fuel 0

/-! ## `csv_reader`

```python
def csv_reader(component, subcommand):
    comp_dict = {}
    entity_list = []
    sat_host = env.get('satellite_host')
    set_hammer_config()
    data = execute(
        hammer, '{0} {1}'.format(component, subcommand), 'csv', host=sat_host
        )[sat_host]
    csv_read = csv.DictReader(str(data.encode('utf-8')).lower().split('\n'))
    for row in csv_read:
        entity_list.append(row)
    comp_dict[component] = entity_list
    return comp_dict
```

`hammerOut` is the oracle for the hammer command's output (`data`; the
Python 2 `str(data.encode('utf-8'))` is the identity on the ASCII text
involved). The whole payload is lower-cased, split on newlines, and fed
to `csv.DictReader`: the first line gives the field names, each further
non-blank line becomes one field-name→value mapping (modelled, like the
`dict(zip(...))` of the stdlib reader, as the zip of the header with the
row). The CSV dialect is hammer's: fields separated by `,`, a field
starting with `"` is quoted, `""` inside quotes is a literal quote. -/

/-- Model of `str.split('\n')`: `cur` is the (reversed) current chunk. -/
def splitLinesAux (cur : List Char) : List Char → List (List Char)
  | [] => [cur.reverse]
  | c :: rest =>
      if c = '\n' then cur.reverse :: splitLinesAux [] rest
      else splitLinesAux (c :: cur) rest

/-- Model of `str.split('\n')`. -/
def splitLines (l : List Char) : List (List Char) := splitLinesAux [] l

/-- CSV scan of an unquoted field region: accumulate until a `,` ends
the field (returning the remaining characters) or the line ends. -/
def csvUnquoted (acc : List Char) : List Char → List Char × Option (List Char)
  | [] => (acc.reverse, none)
  | c :: rest =>
      if c = ',' then (acc.reverse, some rest)
      else csvUnquoted (c :: acc) rest

/-- CSV scan inside a quoted field: `""` is a literal quote, a single
closing `"` drops back to the unquoted scan (anything before the next
`,` is appended, as in the stdlib's non-strict reader). -/
def csvQuoted (acc : List Char) : List Char → List Char × Option (List Char)
  | [] => (acc.reverse, none)
  | [c] =>
      if c = '"' then csvUnquoted acc [] else ((c :: acc).reverse, none)
  | c :: c2 :: rest =>
      if c = '"' then
        if c2 = '"' then csvQuoted ('"' :: acc) rest
        else csvUnquoted acc (c2 :: rest)
      else csvQuoted (c :: acc) (c2 :: rest)

/-- Parse one CSV field: quoted iff it starts with `"`. -/
def csvParseField (l : List Char) : List Char × Option (List Char) :=
  match l with
  | [] => csvUnquoted [] []
  | c :: rest =>
      if c = '"' then csvQuoted [] rest else csvUnquoted [] (c :: rest)

/-- Parse the fields of a line; the fuel only needs to exceed the line
length, each field consuming at least its separator. -/
def csvFieldsAux : Nat → List Char → List String
  | 0, _ => []
  | fuel + 1, l =>
      match csvParseField l with
      | (f, none) => [String.mk f]
      | (f, some rest) => String.mk f :: csvFieldsAux fuel rest

/-- One line as a CSV row: a blank line is the empty row (which
`DictReader` skips), any other line is its list of fields. -/
def csvRow (line : List Char) : List String :=
  if line.isEmpty then [] else csvFieldsAux (line.length + 1) line

/-- Model of `csv.DictReader` over the split lines: the first line (even
a blank one) provides the field names; every further non-blank line
yields the mapping zipping the field names with its fields. -/
def dictReader (lines : List (List Char)) : List (List (String × String)) :=
  match lines with
  | [] => []
  | header :: rest =>
      let fieldnames := csvRow header
      (rest.map csvRow).filterMap
        (fun row => if row.isEmpty then none else some (fieldnames.zip row))

/-- Model of `csv_reader`: the returned `comp_dict`, a single-entry
mapping from the component name to the parsed entity list. `subcommand`
only forms the remote hammer command line, so it does not influence the
parse of the captured output `hammerOut`. -/
def csv_reader (hammerOut : String) (component subcommand : String) :
    List (String × List (List (String × String))) :=
  let _hammer_args := component ++ " " ++ subcommand
  let entity_list := dictReader (splitLines (strLower hammerOut).data)
  [(component, entity_list)]

/-! ## `create_setup_dict` / `get_setup_data`

```python
def create_setup_dict(setups_dict):
    with open('product_setup', 'wb') as pref:
        json.dump(setups_dict, pref)

def get_setup_data():
    with open('product_setup', 'r') as pref:
        data = json.load(pref)
    return data
```

The `product_setup` file is modelled as `Option String` (its content in
the current working directory, `none` = absent). The JSON-serializable
values the module persists are modelled by the `JVal` AST below —
numbers as integers (floats are floating point, outside the embedding);
a mapping is a `JObj`, a key/value association list. `json.dump` (Python
2 defaults: separators `', '` and `': '`, `ensure_ascii=True`) is
modelled by `renderVal`, `json.load` by `loads`: whitespace-tolerant,
strict strings (raw control characters rejected), `\uXXXX` escapes with
surrogate-pair recombination. -/

mutual
inductive JVal where
  | jnull
  | jbool (b : Bool)
  | jnum (n : Int)
  | jstr (s : String)
  | jarr (vs : JArr)
  | jobj (kvs : JObj)

inductive JArr where
  | nil
  | cons (v : JVal) (rest : JArr)

inductive JObj where
  | nil
  | cons (k : String) (v : JVal) (rest : JObj)
end

/-- The decimal digit character for `n < 10`. -/
def digitCh (n : Nat) : Char := Char.ofNat (48 + n)

/-- Decimal rendering of a natural number (model of Python `str(n)`). -/
def natDec (n : Nat) : List Char :=
  if h : n < 10 then [digitCh n]
  else natDec (n / 10) ++ [digitCh (n % 10)]
termination_by n
decreasing_by exact Nat.div_lt_self (by omega) (by omega)

/-- Decimal rendering of an integer (model of Python `str(n)`). -/
def renderInt (n : Int) : List Char :=
  if n < 0 then '-' :: natDec (-n).toNat else natDec n.toNat

/-- Lower-case hex digit for `n < 16`, as `'%04x'` uses. -/
def hexDigit (n : Nat) : Char :=
  if n < 10 then Char.ofNat (48 + n) else Char.ofNat (87 + n)

/-- Four-digit lower-case hex rendering of `n < 65536`. -/
def toHex4 (n : Nat) : List Char :=
  [hexDigit (n / 4096 % 16), hexDigit (n / 256 % 16),
   hexDigit (n / 16 % 16), hexDigit (n % 16)]

/-- `json.dump`'s escaping of one string character (`ensure_ascii`):
short escapes for quote, backslash and the common controls, `\uXXXX`
for every other character outside `0x20..0x7e` (a surrogate pair above
`0xffff`), the character itself otherwise. -/
def escapeChar (c : Char) : List Char :=
  if c = '"' then ['\\', '"']
  else if c = '\\' then ['\\', '\\']
  else if c.toNat = 8 then ['\\', 'b']
  else if c.toNat = 9 then ['\\', 't']
  else if c.toNat = 10 then ['\\', 'n']
  else if c.toNat = 12 then ['\\', 'f']
  else if c.toNat = 13 then ['\\', 'r']
  else if c.toNat < 32 ∨ 126 < c.toNat then
    if c.toNat < 65536 then '\\' :: 'u' :: toHex4 c.toNat
    else
      ('\\' :: 'u' :: toHex4 (55296 + (c.toNat - 65536) / 1024)) ++
        ('\\' :: 'u' :: toHex4 (56320 + (c.toNat - 65536) % 1024))
  else [c]

/-- `json.dump`'s rendering of a string. -/
def renderStr (s : String) : List Char :=
  '"' :: (s.data.flatMap escapeChar ++ ['"'])

mutual
/-- `json.dump` with Python 2 defaults (separators `', '`, `': '`). -/
def renderVal : JVal → List Char
  | .jnull => ['n', 'u', 'l', 'l']
  | .jbool true => ['t', 'r', 'u', 'e']
  | .jbool false => ['f', 'a', 'l', 's', 'e']
  | .jnum n => renderInt n
  | .jstr s => renderStr s
  | .jarr .nil => ['[', ']']
  | .jarr (.cons v vs) => '[' :: (renderVal v ++ renderArr vs ++ [']'])
  | .jobj .nil => ['{', '}']
  | .jobj (.cons k v kvs) =>
      '{' :: (renderStr k ++ ':' :: ' ' :: renderVal v ++
        renderObj kvs ++ ['}'])

/-- The `", element"` continuation of an array rendering. -/
def renderArr : JArr → List Char
  | .nil => []
  | .cons v vs => ',' :: ' ' :: (renderVal v ++ renderArr vs)

/-- The `", "key": value"` continuation of an object rendering. -/
def renderObj : JObj → List Char
  | .nil => []
  | .cons k v kvs =>
      ',' :: ' ' :: (renderStr k ++ ':' :: ' ' :: renderVal v ++
        renderObj kvs)
end

/-- JSON insignificant whitespace. -/
def isWs (c : Char) : Bool := c = ' ' ∨ c = '\t' ∨ c = '\n' ∨ c = '\r'

/-- Skip insignificant whitespace. -/
def skipWs (l : List Char) : List Char := l.dropWhile isWs

/-- Value of one hex digit (either case). -/
def hexVal (c : Char) : Option Nat :=
  if 48 ≤ c.toNat ∧ c.toNat ≤ 57 then some (c.toNat - 48)
  else if 97 ≤ c.toNat ∧ c.toNat ≤ 102 then some (c.toNat - 87)
  else if 65 ≤ c.toNat ∧ c.toNat ≤ 70 then some (c.toNat - 55)
  else none

/-- Parse exactly four hex digits. -/
def parseHex4 : List Char → Option (Nat × List Char)
  | c1 :: c2 :: c3 :: c4 :: rest =>
      match hexVal c1, hexVal c2, hexVal c3, hexVal c4 with
      | some h1, some h2, some h3, some h4 =>
          some (h1 * 4096 + h2 * 256 + h3 * 16 + h4, rest)
      | _, _, _, _ => none
  | _ => none

/-- Combine a parsed low-surrogate escape with the pending high
surrogate `u`. -/
def decodeSurrLow (u : Nat) : Option (Nat × List Char) →
    Option (Char × List Char)
  | some (u2, rest2) =>
      if 56320 ≤ u2 ∧ u2 ≤ 57343 then
        some (Char.ofNat (65536 + (u - 55296) * 1024 + (u2 - 56320)), rest2)
      else none
  | none => none

/-- After a high surrogate `\uXXXX`, parse the low-surrogate escape and
recombine, as `json.load` does; a lone surrogate has no counterpart in
unicode-scalar strings and is rejected by the model. -/
def decodeSurrogatePair (u : Nat) : List Char → Option (Char × List Char)
  | e1 :: e2 :: rest =>
      if e1 = '\\' ∧ e2 = 'u' then decodeSurrLow u (parseHex4 rest)
      else none
  | _ => none

/-- Interpret a parsed `\uXXXX` code unit: recombine a high surrogate
with its follower, reject a lone low surrogate, accept a scalar. -/
def decodeEscU : Option (Nat × List Char) → Option (Char × List Char)
  | some (u, rest2) =>
      if 55296 ≤ u ∧ u ≤ 56319 then decodeSurrogatePair u rest2
      else if 56320 ≤ u ∧ u ≤ 57343 then none
      else some (Char.ofNat u, rest2)
  | none => none

/-- Decode one backslash escape (the backslash itself already read). -/
def decodeEsc : List Char → Option (Char × List Char)
  | [] => none
  | e :: rest =>
      if e = '"' then some ('"', rest)
      else if e = '\\' then some ('\\', rest)
      else if e = '/' then some ('/', rest)
      else if e = 'b' then some (Char.ofNat 8, rest)
      else if e = 'f' then some (Char.ofNat 12, rest)
      else if e = 'n' then some ('\n', rest)
      else if e = 'r' then some (Char.ofNat 13, rest)
      else if e = 't' then some ('\t', rest)
      else if e = 'u' then decodeEscU (parseHex4 rest)
      else none

/-- Parse a string body (opening quote already read) up to the closing
quote; strict mode: raw control characters are rejected. The fuel only
needs to exceed the number of source characters, each consuming at
least one input character. -/
def parseStrBody : Nat → List Char → List Char → Option (String × List Char)
  | 0, _, _ => none
  | fuel + 1, acc, l =>
      match l with
      | [] => none
      | c :: rest =>
          if c = '"' then some (String.mk acc.reverse, rest)
          else if c = '\\' then
            match decodeEsc rest with
            | some (d, rest2) => parseStrBody fuel (d :: acc) rest2
            | none => none
          else if c.toNat < 32 then none
          else parseStrBody fuel (c :: acc) rest

/-- Greedy scan of decimal digits with accumulator. -/
def parseDigitsAux (acc : Nat) : List Char → Nat × List Char
  | [] => (acc, [])
  | c :: rest =>
      if 48 ≤ c.toNat ∧ c.toNat ≤ 57 then
        parseDigitsAux (acc * 10 + (c.toNat - 48)) rest
      else (acc, c :: rest)

/-- Parse a JSON natural-number token: `0`, or a nonzero digit followed
by a greedy digit run. -/
def parseNatTok : List Char → Option (Nat × List Char)
  | [] => none
  | c :: rest =>
      if c = '0' then some (0, rest)
      else if 49 ≤ c.toNat ∧ c.toNat ≤ 57 then
        some (parseDigitsAux 0 (c :: rest))
      else none

/-- Parse a JSON integer token with optional leading `-`. -/
def parseIntTok (l : List Char) : Option (Int × List Char) :=
  match l with
  | [] => none
  | c :: rest =>
      if c = '-' then
        match parseNatTok rest with
        | some (n, rest2) => some (-(n : Int), rest2)
        | none => none
      else
        match parseNatTok l with
        | some (n, rest2) => some ((n : Int), rest2)
        | none => none

/-- Expect the given literal characters at the head of the input. -/
def dropLit : List Char → List Char → Option (List Char)
  | [], l => some l
  | _ :: _, [] => none
  | c :: cs, d :: ds => if c = d then dropLit cs ds else none

mutual
/-- One JSON value, model of `json.load`'s scanner on the integer
fragment; the fuel bounds the nesting structure and only needs to reach
`fsizeV` of the value parsed. Skips leading whitespace, then dispatches
on the first character. -/
def parseValue : Nat → List Char → Option (JVal × List Char)
  | 0, _ => none
  | fuel + 1, l => parseValueBody fuel (skipWs l)
termination_by fuel _ => 3 * fuel

/-- Dispatch of `parseValue` on the first non-whitespace character. -/
def parseValueBody (fuel : Nat) : List Char → Option (JVal × List Char)
  | [] => none
  | c :: rest =>
      if c = 'n' then
        match dropLit ['u', 'l', 'l'] rest with
        | some rest2 => some (.jnull, rest2)
        | none => none
      else if c = 't' then
        match dropLit ['r', 'u', 'e'] rest with
        | some rest2 => some (.jbool true, rest2)
        | none => none
      else if c = 'f' then
        match dropLit ['a', 'l', 's', 'e'] rest with
        | some rest2 => some (.jbool false, rest2)
        | none => none
      else if c = '"' then
        match parseStrBody (rest.length + 1) [] rest with
        | some (s, rest2) => some (.jstr s, rest2)
        | none => none
      else if c = '[' then parseArrHead fuel (skipWs rest)
      else if c = '{' then parseObjHead fuel (skipWs rest)
      else
        match parseIntTok (c :: rest) with
        | some (n, rest2) => some (.jnum n, rest2)
        | none => none
termination_by _ => 3 * fuel + 2

/-- After `[` and whitespace: the empty array or its first element. -/
def parseArrHead (fuel : Nat) : List Char → Option (JVal × List Char)
  | [] => none
  | c2 :: rest2 =>
      if c2 = ']' then some (.jarr .nil, rest2)
      else
        match parseValue fuel (c2 :: rest2) with
        | some (v, rest3) =>
            match parseArrRest fuel rest3 with
            | some (vs, rest4) => some (.jarr (.cons v vs), rest4)
            | none => none
        | none => none
termination_by _ => 3 * fuel + 1

/-- After `{` and whitespace: the empty object or its first entry. -/
def parseObjHead (fuel : Nat) : List Char → Option (JVal × List Char)
  | [] => none
  | c2 :: rest2 =>
      if c2 = '}' then some (.jobj .nil, rest2)
      else
        match parseObjEntry fuel (c2 :: rest2) with
        | some (k, v, rest3) =>
            match parseObjRest fuel rest3 with
            | some (kvs, rest4) => some (.jobj (.cons k v kvs), rest4)
            | none => none
        | none => none
termination_by _ => 3 * fuel + 1

/-- After an array element: `,` and a further element, or the closing
`]`. -/
def parseArrRest : Nat → List Char → Option (JArr × List Char)
  | 0, _ => none
  | fuel + 1, l => parseArrRestBody fuel (skipWs l)
termination_by fuel _ => 3 * fuel

/-- Dispatch of `parseArrRest` on the first non-whitespace character. -/
def parseArrRestBody (fuel : Nat) : List Char → Option (JArr × List Char)
  | [] => none
  | c :: rest =>
      if c = ']' then some (.nil, rest)
      else if c = ',' then
        match parseValue fuel rest with
        | some (v, rest2) =>
            match parseArrRest fuel rest2 with
            | some (vs, rest3) => some (.cons v vs, rest3)
            | none => none
        | none => none
      else none
termination_by _ => 3 * fuel + 2

/-- After an object entry: `,` and a further entry, or the closing
`}`. -/
def parseObjRest : Nat → List Char → Option (JObj × List Char)
  | 0, _ => none
  | fuel + 1, l => parseObjRestBody fuel (skipWs l)
termination_by fuel _ => 3 * fuel

/-- Dispatch of `parseObjRest` on the first non-whitespace character. -/
def parseObjRestBody (fuel : Nat) : List Char → Option (JObj × List Char)
  | [] => none
  | c :: rest =>
      if c = '}' then some (.nil, rest)
      else if c = ',' then
        match parseObjEntry fuel rest with
        | some (k, v, rest2) =>
            match parseObjRest fuel rest2 with
            | some (kvs, rest3) => some (.cons k v kvs, rest3)
            | none => none
        | none => none
      else none
termination_by _ => 3 * fuel + 2

/-- One `"key": value` object entry. -/
def parseObjEntry : Nat → List Char → Option (String × JVal × List Char)
  | 0, _ => none
  | fuel + 1, l => parseObjEntryBody fuel (skipWs l)
termination_by fuel _ => 3 * fuel

/-- Dispatch of `parseObjEntry` at the key string. -/
def parseObjEntryBody (fuel : Nat) : List Char →
    Option (String × JVal × List Char)
  | [] => none
  | c :: rest =>
      if c = '"' then
        match parseStrBody (rest.length + 1) [] rest with
        | some (k, rest2) => parseObjEntryColon fuel k (skipWs rest2)
        | none => none
      else none
termination_by _ => 3 * fuel + 2

/-- After an entry's key: the `:` and the value. -/
def parseObjEntryColon (fuel : Nat) (k : String) : List Char →
    Option (String × JVal × List Char)
  | [] => none
  | c2 :: rest3 =>
      if c2 = ':' then
        match parseValue fuel rest3 with
        | some (v, rest4) => some (k, v, rest4)
        | none => none
      else none
termination_by _ => 3 * fuel + 1
end

/-- Model of `json.loads`/`json.load`: parse one value, then only
whitespace may remain. -/
def loads (s : String) : Option JVal :=
  match parseValue (s.data.length + 1) s.data with
  | some (v, rest) => if (skipWs rest).isEmpty then some v else none
  | none => none

/-- The power of ten with as many zeros as `n` has digits; the weight a
digit run shifts an accumulator by. -/
def tenPow (n : Nat) : Nat :=
  if n < 10 then 10 else 10 * tenPow (n / 10)
termination_by n
decreasing_by exact Nat.div_lt_self (by omega) (by omega)

/-- The input does not continue with a decimal digit, so a greedy digit
scan stops in front of it. -/
def notDigitHead : List Char → Prop
  | [] => True
  | c :: _ => c.toNat < 48 ∨ 57 < c.toNat

mutual
/-- Fuel sufficient for `parseValue` on the rendering of a value. -/
def fsizeV : JVal → Nat
  | .jnull => 1
  | .jbool _ => 1
  | .jnum _ => 1
  | .jstr _ => 1
  | .jarr .nil => 2
  | .jarr (.cons v vs) => 1 + max (fsizeV v) (fsizeA vs)
  | .jobj .nil => 2
  | .jobj (.cons _ v kvs) => 1 + max (fsizeV v + 1) (fsizeO kvs)

/-- Fuel sufficient for `parseArrRest` on a rendered array tail. -/
def fsizeA : JArr → Nat
  | .nil => 1
  | .cons v vs => 1 + max (fsizeV v) (fsizeA vs)

/-- Fuel sufficient for `parseObjRest` on a rendered object tail. -/
def fsizeO : JObj → Nat
  | .nil => 1
  | .cons _ v kvs => 1 + max (fsizeV v + 1) (fsizeO kvs)
end

mutual
/-- Structural measure on which the round-trip proofs recurse. -/
def msizeV : JVal → Nat
  | .jnull => 1
  | .jbool _ => 1
  | .jnum _ => 1
  | .jstr _ => 1
  | .jarr vs => 1 + msizeA vs
  | .jobj kvs => 1 + msizeO kvs

/-- Structural measure on which the round-trip proofs recurse. -/
def msizeA : JArr → Nat
  | .nil => 1
  | .cons v vs => 1 + msizeV v + msizeA vs

/-- Structural measure on which the round-trip proofs recurse. -/
def msizeO : JObj → Nat
  | .nil => 1
  | .cons _ v kvs => 1 + msizeV v + msizeO kvs
end

/-- The parser inverts the renderer on this value, for every sufficient
fuel and every continuation that does not extend its last token. -/
def ParsesVal (v : JVal) : Prop :=
  ∀ fuel rest, fsizeV v ≤ fuel → notDigitHead rest →
    parseValue fuel (renderVal v ++ rest) = some (v, rest)

/-- The parser inverts the renderer on this array tail. -/
def ParsesArr (vs : JArr) : Prop :=
  ∀ fuel rest, fsizeA vs ≤ fuel →
    parseArrRest fuel (renderArr vs ++ ']' :: rest) = some (vs, rest)

/-- The parser inverts the renderer on this object tail. -/
def ParsesObj (kvs : JObj) : Prop :=
  ∀ fuel rest, fsizeO kvs ≤ fuel →
    parseObjRest fuel (renderObj kvs ++ '}' :: rest) = some (kvs, rest)

/-- The setup mapping named by the specification's example,
`{"a": 1, "b": [1, 2]}`. -/
def exampleSetup : JObj :=
  .cons "a" (.jnum 1)
    (.cons "b" (.jarr (.cons (.jnum 1) (.cons (.jnum 2) .nil))) .nil)

/-- Model of `create_setup_dict`: overwrite the `product_setup` file
with the JSON serialization of the given mapping. -/
def create_setup_dict (setups_dict : JObj) (_fs : Option String) :
    Option String :=
  some (String.mk (renderVal (.jobj setups_dict)))

/-- Model of `get_setup_data`: read and deserialize `product_setup`;
an absent file is an `IOError`, unparsable content a `ValueError`. -/
def get_setup_data (fs : Option String) : Except String JVal :=
  match fs with
  | none => .error "IOError"
  | some content =>
      match loads content with
      | some v => .ok v
      | none => .error "ValueError"

end Tools

namespace Tools

/-- helper: a failing tick before the deadline does not decide the loop. -/
theorem host_pings_loop_cons_fail (timeup : Nat) (p : PingTick)
    (rest : List PingTick) (hc : p.code ≠ 0) (ht : p.tNow ≤ timeup) :
    host_pings_loop timeup (p :: rest) = host_pings_loop timeup rest := by
  simp only [host_pings_loop]
  rw [if_neg (by omega), if_neg hc]

/-- C9: `reboot` returns normally (no exception escapes) for every
`halt_time`, whether or not the remote reboot command raises, and it
still performs the `sleep halt_time` suspension before returning. -/
theorem reboot_swallows_failure_and_sleeps (raises : Bool) (halt_time : Nat) :
    (reboot raises halt_time).2 = .ok () ∧
      (reboot raises halt_time).1 =
        [.runCmd "host" "reboot", .sleep halt_time] := by
  cases raises <;> exact ⟨rfl, rfl⟩

/-- C1: in `host_pings` the deadline check precedes the exit-code check,
so if every earlier ping failed and the first successful ping is observed
at a tick whose clock is already past the deadline, the function returns
`false` (timed out), not `true`. -/
theorem host_pings_timeout_beats_success (t0 timeout : Nat)
    (pre : List PingTick) (tick : PingTick) (rest : List PingTick)
    (hpre : ∀ p ∈ pre, p.code ≠ 0)
    (hlate : t0 + timeout * 60 < tick.tNow) (hsucc : tick.code = 0) :
    host_pings t0 (pre ++ tick :: rest) timeout = some false := by
  unfold host_pings
  induction pre with
  | nil =>
      simp only [List.nil_append, host_pings_loop]
      rw [if_pos hlate]
  | cons p ps ih =>
      have hp := hpre p (List.mem_cons_self p ps)
      have hps : ∀ q ∈ ps, q.code ≠ 0 := fun q hq =>
        hpre q (List.mem_cons_of_mem p hq)
      by_cases hpt : p.tNow ≤ t0 + timeout * 60
      · rw [List.cons_append, host_pings_loop_cons_fail _ p _ hp hpt]
        exact ih hps
      · rw [List.cons_append]
        simp only [host_pings_loop]
        rw [if_pos (by omega)]

/-- C1 witness: a concrete trace where the only successful ping arrives
after the deadline. -/
theorem host_pings_timeout_beats_success_witness :
    host_pings 0 [⟨30, 1⟩, ⟨100, 0⟩] 1 = some false :=
  host_pings_timeout_beats_success 0 1 [⟨30, 1⟩] ⟨100, 0⟩ []
    (by intro p hp; simp at hp; subst hp; decide) (by decide) rfl

/-- C2: the version-extraction pattern yields `"6.2.1"` on the output
`"satellite-6.2.1-1.noarch"` and `"6.1"` on the output
`"VERSION = 6.1"`. -/
theorem version_extraction_examples :
    _extract_sat_cap_version (fun _ => "satellite-6.2.1-1.noarch")
        "rpm -q satellite" =
      .ok (some "6.2.1", "satellite-6.2.1-1.noarch") ∧
    _extract_sat_cap_version (fun _ => "VERSION = 6.1")
        "grep \"VERSION\" /usr/share/foreman/lib/satellite/version.rb" =
      .ok (some "6.1", "VERSION = 6.1") := by
  constructor <;> rfl

/-- C3: for a product string containing both `"sat"` and `"cap"`
(case-insensitively), the `sat` branch runs first and the `cap` branch
overwrites it, so the command pair in effect is the capsule pair
(`rpm -q satellite-capsule` with the `'None'` fallback) and the loop
executes exactly that pair. -/
theorem cap_branch_overwrites_sat_branch (runOut : String → String)
    (product : String)
    (hsat : strIn "sat" (strLower product) = true)
    (hcap : strIn "cap" (strLower product) = true) :
    satCapCmds product = some capPair ∧
      get_sat_cap_version runOut product = runPair runOut capPair := by
  have h1 : satCapCmds product = some capPair := by
    unfold satCapCmds
    rw [if_pos hcap]
  refine ⟨h1, ?_⟩
  unfold get_sat_cap_version
  rw [h1]

/-- C3 witness: the product string `"SatCap"` contains both substrings
and gets the capsule command pair. -/
theorem cap_branch_overwrites_sat_branch_witness :
    satCapCmds "SatCap" = some capPair ∧
      get_sat_cap_version (fun _ => "satellite-capsule-6.2.1-1.noarch")
          "SatCap" =
        runPair (fun _ => "satellite-capsule-6.2.1-1.noarch") capPair :=
  cap_branch_overwrites_sat_branch _ "SatCap" (by decide) (by decide)

/-- C4: for a product string containing neither `"sat"` nor `"cap"`,
`get_sat_cap_version` references the unassigned command names: it
executes no command and fails with a `NameError` instead of producing a
result. -/
theorem unmatched_product_name_error (runOut : String → String)
    (product : String)
    (hsat : strIn "sat" (strLower product) = false)
    (hcap : strIn "cap" (strLower product) = false) :
    get_sat_cap_version runOut product = (.error (), []) := by
  have h1 : satCapCmds product = none := by
    unfold satCapCmds
    rw [if_neg (by simp [hcap]), if_neg (by simp [hsat])]
  unfold get_sat_cap_version
  rw [h1]

/-- C4 witness: the product string `"foreman"` matches neither branch. -/
theorem unmatched_product_name_error_witness :
    get_sat_cap_version (fun _ => "") "foreman" = (.error (), []) :=
  unmatched_product_name_error _ "foreman" (by decide) (by decide)

/-- C5: when the public-key content read from the source host is empty
(Python-falsy), `copy_ssh_key` executes no command on any target host —
its whole trace is the four source-host setup commands — and no error is
raised. -/
theorem copy_ssh_key_empty_key_noop (from_host : String)
    (to_hosts : List String) :
    copy_ssh_key "" from_host to_hosts = sourceHostCmds from_host := by
  simp [copy_ssh_key]

/-- helper: the hostname loop reaches the first successful attempt when
every earlier attempt fails and the clock stays within the deadline. -/
theorem get_hostname_loop_success (timeup : Nat) (t : Nat → Nat)
    (attempt : Nat → Option String) (N : Nat) (h : String)
    (hsucc : attempt N = some h)
    (hok : ∀ j ≤ N, t j ≤ timeup) :
    ∀ fuel i, N - i < fuel → i ≤ N →
      (∀ j, i ≤ j → j < N → attempt j = none) →
      get_hostname_loop timeup t attempt fuel i = some (.hostname h, N) := by
  intro fuel
  induction fuel with
  | zero => intro i hf _ _; omega
  | succ fuel ih =>
      intro i hf hiN hfail
      simp only [get_hostname_loop]
      rw [if_neg (by have := hok i hiN; omega)]
      by_cases hi : i = N
      · subst hi
        rw [hsucc]
      · rw [hfail i le_rfl (by omega)]
        exact ih (i + 1) (by omega) (by omega)
          (fun j hj1 hj2 => hfail j (by omega) hj2)

/-- helper: the hostname loop returns `False` at the first iteration
whose clock exceeds the deadline, when every attempt before it fails. -/
theorem get_hostname_loop_timeout (timeup : Nat) (t : Nat → Nat)
    (attempt : Nat → Option String) (j0 : Nat)
    (hlate : timeup < t j0)
    (hbefore : ∀ j < j0, attempt j = none ∧ t j ≤ timeup) :
    ∀ fuel i, j0 - i < fuel → i ≤ j0 →
      get_hostname_loop timeup t attempt fuel i = some (.timedOut, j0) := by
  intro fuel
  induction fuel with
  | zero => intro i hf _; omega
  | succ fuel ih =>
      intro i hf hij
      simp only [get_hostname_loop]
      by_cases hi : i = j0
      · subst hi
        rw [if_pos hlate]
      · have hb := hbefore i (by omega)
        rw [if_neg (by omega), hb.1]
        exact ih (i + 1) (by omega) (by omega)

/-- C8: with the clock advancing 5s per retry, if the remote hostname
command fails on the first `N` attempts and succeeds on attempt `N`,
`get_hostname_from_ip` returns the resolved hostname after exactly `N`
retries when those `N` 5-second sleeps keep the success attempt within
the deadline, and otherwise returns `False` at the first late deadline
check; the `N` command failures are caught, never propagated. -/
theorem hostname_resolver_retries (t0 timeout N k : Nat) (h : String)
    (attempt : Nat → Option String)
    (hfail : ∀ j < N, attempt j = none) (hsucc : attempt N = some h) :
    (5 * N ≤ timeout * 60 →
      get_hostname_from_ip t0 (fun j => t0 + 5 * j) attempt (N + 1 + k)
          timeout =
        some (.hostname h, N)) ∧
    (timeout * 60 < 5 * N →
      get_hostname_from_ip t0 (fun j => t0 + 5 * j) attempt (N + 1 + k)
          timeout =
        some (.timedOut, 12 * timeout + 1)) := by
  constructor
  · intro hle
    unfold get_hostname_from_ip
    exact get_hostname_loop_success _ _ _ N h hsucc
      (fun j hj => by show t0 + 5 * j ≤ t0 + timeout * 60; omega)
      (N + 1 + k) 0 (by omega) (by omega) (fun j _ hj => hfail j hj)
  · intro hgt
    unfold get_hostname_from_ip
    refine get_hostname_loop_timeout _ _ _ (12 * timeout + 1) ?_ ?_
      (N + 1 + k) 0 (by omega) (by omega)
    · show t0 + timeout * 60 < t0 + 5 * (12 * timeout + 1)
      omega
    · intro j hj
      exact ⟨hfail j (by omega),
        by show t0 + 5 * j ≤ t0 + timeout * 60; omega⟩

/-- C8 witness: two failures then a success, within a 1-minute deadline:
the name is resolved after exactly 2 retries. -/
theorem hostname_resolver_retries_witness :
    get_hostname_from_ip 0 (fun j => 0 + 5 * j)
        (fun j => if j < 2 then none else some "host1.ab.com") 3 1 =
      some (.hostname "host1.ab.com", 2) :=
  (hostname_resolver_retries 0 1 2 0 "host1.ab.com" _
      (fun j hj => by simp [hj]) (by decide)).1 (by decide)

/-- C7: on hammer output with header `name,id` and the single data row
`host1.ab.com,10`, `csv_reader` for component `"host"` returns the
mapping `{"host": [{"name": "host1.ab.com", "id": "10"}]}`. -/
theorem csv_reader_example :
    csv_reader "name,id\nhost1.ab.com,10" "host" "list" =
      [("host", [[("name", "host1.ab.com"), ("id", "10")]])] := by
  rfl

/-- helper: ASCII lower-casing is idempotent. -/
theorem lowerChar_fix (c : Char) : lowerChar (lowerChar c) = lowerChar c := by
  by_cases h : 65 ≤ c.toNat ∧ c.toNat ≤ 90
  · have ht : (Char.ofNat (c.toNat + 32)).toNat = c.toNat + 32 := by
      unfold Char.ofNat
      rw [dif_pos (Or.inl (by omega))]
      rfl
    have h1 : lowerChar c = Char.ofNat (c.toNat + 32) := by
      unfold lowerChar
      rw [if_pos h]
    rw [h1]
    unfold lowerChar
    rw [if_neg (by rw [ht]; omega)]
  · have h1 : lowerChar c = c := by
      unfold lowerChar
      rw [if_neg h]
    rw [h1, h1]

/-- helper: every character of a lower-cased string is fixed by
lower-casing. -/
theorem strLower_chars_fixed (s : String) :
    ∀ c ∈ (strLower s).data, lowerChar c = c := by
  intro c hc
  simp only [strLower, List.mem_map] at hc
  obtain ⟨x, _, hx⟩ := hc
  rw [← hx, lowerChar_fix]

/-- helper: `splitLinesAux` only rearranges characters of its inputs. -/
theorem splitLinesAux_pres (P : Char → Prop) :
    ∀ l cur, (∀ c ∈ cur, P c) → (∀ c ∈ l, P c) →
      ∀ line ∈ splitLinesAux cur l, ∀ c ∈ line, P c := by
  intro l
  induction l with
  | nil =>
      intro cur hcur _ line hline c hc
      simp only [splitLinesAux, List.mem_singleton] at hline
      subst hline
      exact hcur c (List.mem_reverse.mp hc)
  | cons a rest ih =>
      intro cur hcur hl line hline c hc
      simp only [splitLinesAux] at hline
      by_cases ha : a = '\n'
      · rw [if_pos ha] at hline
        rcases List.mem_cons.mp hline with h1 | h1
        · subst h1
          exact hcur c (List.mem_reverse.mp hc)
        · exact ih [] (by simp) (fun x hx => hl x (List.mem_cons_of_mem a hx))
            line h1 c hc
      · rw [if_neg ha] at hline
        exact ih (a :: cur)
          (fun x hx => by
            rcases List.mem_cons.mp hx with h1 | h1
            · rw [h1]; exact hl a (List.mem_cons_self a rest)
            · exact hcur x h1)
          (fun x hx => hl x (List.mem_cons_of_mem a hx)) line hline c hc

/-- helper: characters produced by the unquoted CSV scan come from its
accumulator or its input. -/
theorem csvUnquoted_pres (P : Char → Prop) :
    ∀ l acc, (∀ c ∈ acc, P c) → (∀ c ∈ l, P c) →
      (∀ c ∈ (csvUnquoted acc l).1, P c) ∧
      (∀ rest, (csvUnquoted acc l).2 = some rest → ∀ c ∈ rest, P c) := by
  intro l
  induction l with
  | nil =>
      intro acc hacc _
      refine ⟨fun c hc => hacc c (List.mem_reverse.mp hc), ?_⟩
      intro rest hrest
      simp [csvUnquoted] at hrest
  | cons a rest ih =>
      intro acc hacc hl
      simp only [csvUnquoted]
      by_cases ha : a = ','
      · rw [if_pos ha]
        refine ⟨fun c hc => hacc c (List.mem_reverse.mp hc), ?_⟩
        intro r hr c hc
        cases hr
        exact hl c (List.mem_cons_of_mem a hc)
      · rw [if_neg ha]
        exact ih (a :: acc)
          (fun x hx => by
            rcases List.mem_cons.mp hx with h1 | h1
            · rw [h1]; exact hl a (List.mem_cons_self a rest)
            · exact hacc x h1)
          (fun x hx => hl x (List.mem_cons_of_mem a hx))

/-- helper: characters produced by the quoted CSV scan come from its
accumulator or its input. -/
theorem csvQuoted_pres (P : Char → Prop) :
    ∀ n l acc, l.length ≤ n → (∀ c ∈ acc, P c) → (∀ c ∈ l, P c) →
      (∀ c ∈ (csvQuoted acc l).1, P c) ∧
      (∀ rest, (csvQuoted acc l).2 = some rest → ∀ c ∈ rest, P c) := by
  intro n
  induction n with
  | zero =>
      intro l acc hlen hacc hl
      have : l = [] := List.length_eq_zero.mp (by omega)
      subst this
      refine ⟨fun c hc => hacc c (List.mem_reverse.mp hc), ?_⟩
      intro rest hrest
      simp [csvQuoted] at hrest
  | succ n ih =>
      intro l acc hlen hacc hl
      rcases l with _ | ⟨a, _ | ⟨a2, rest2⟩⟩
      · refine ⟨fun c hc => hacc c (List.mem_reverse.mp hc), ?_⟩
        intro r hr
        exact Option.noConfusion hr
      · simp only [csvQuoted]
        by_cases ha : a = '"'
        · rw [if_pos ha]
          exact csvUnquoted_pres P [] acc hacc (by simp)
        · rw [if_neg ha]
          refine ⟨?_, ?_⟩
          · intro c hc
            rw [List.mem_reverse] at hc
            rcases List.mem_cons.mp hc with h1 | h1
            · rw [h1]; exact hl a (by simp)
            · exact hacc c h1
          · intro r hr
            exact Option.noConfusion hr
      · simp only [csvQuoted]
        by_cases ha : a = '"'
        · rw [if_pos ha]
          by_cases ha2 : a2 = '"'
          · rw [if_pos ha2]
            refine ih rest2 ('"' :: acc) (by simp at hlen ⊢; omega) ?_ ?_
            · intro x hx
              rcases List.mem_cons.mp hx with h1 | h1
              · rw [h1, ← ha2]
                exact hl a2 (by simp)
              · exact hacc x h1
            · intro x hx
              exact hl x (by simp [hx])
          · rw [if_neg ha2]
            exact csvUnquoted_pres P (a2 :: rest2) acc hacc
              (fun x hx => hl x (List.mem_cons_of_mem a hx))
        · rw [if_neg ha]
          refine ih (a2 :: rest2) (a :: acc) (by simp at hlen ⊢; omega) ?_
            (fun x hx => hl x (List.mem_cons_of_mem a hx))
          intro x hx
          rcases List.mem_cons.mp hx with h1 | h1
          · rw [h1]; exact hl a (by simp)
          · exact hacc x h1

/-- helper: characters of a parsed CSV field come from the line. -/
theorem csvParseField_pres (P : Char → Prop) (l : List Char)
    (hl : ∀ c ∈ l, P c) :
    (∀ c ∈ (csvParseField l).1, P c) ∧
    (∀ rest, (csvParseField l).2 = some rest → ∀ c ∈ rest, P c) := by
  rcases l with _ | ⟨a, rest⟩
  · exact csvUnquoted_pres P [] [] (by simp) (by simp)
  · simp only [csvParseField]
    by_cases ha : a = '"'
    · rw [if_pos ha]
      exact csvQuoted_pres P rest.length rest [] le_rfl (by simp)
        (fun x hx => hl x (List.mem_cons_of_mem a hx))
    · rw [if_neg ha]
      exact csvUnquoted_pres P (a :: rest) [] (by simp) hl

/-- helper: characters of every field of a line come from the line. -/
theorem csvFieldsAux_pres (P : Char → Prop) :
    ∀ fuel l, (∀ c ∈ l, P c) →
      ∀ f ∈ csvFieldsAux fuel l, ∀ c ∈ f.data, P c := by
  intro fuel
  induction fuel with
  | zero => intro l _ f hf; simp [csvFieldsAux] at hf
  | succ fuel ih =>
      intro l hl f hf
      have hpres := csvParseField_pres P l hl
      simp only [csvFieldsAux] at hf
      rcases hpf : csvParseField l with ⟨fld, rest?⟩
      rw [hpf] at hf hpres
      rcases rest? with _ | rest
      · simp only [List.mem_singleton] at hf
        subst hf
        exact hpres.1
      · rcases List.mem_cons.mp hf with h1 | h1
        · subst h1
          exact hpres.1
        · exact ih rest (hpres.2 rest rfl) f h1

/-- helper: characters of every field of a CSV row come from the line. -/
theorem csvRow_pres (P : Char → Prop) (line : List Char)
    (hl : ∀ c ∈ line, P c) :
    ∀ f ∈ csvRow line, ∀ c ∈ f.data, P c := by
  intro f hf
  simp only [csvRow] at hf
  by_cases he : line.isEmpty
  · rw [if_pos he] at hf
    simp at hf
  · rw [if_neg he] at hf
    exact csvFieldsAux_pres P (line.length + 1) line hl f hf

/-- helper: keys and values of every `dictReader` row come from the
input lines. -/
theorem dictReader_pres (P : Char → Prop) (lines : List (List Char))
    (hl : ∀ line ∈ lines, ∀ c ∈ line, P c) :
    ∀ row ∈ dictReader lines, ∀ kv ∈ row,
      (∀ c ∈ kv.1.data, P c) ∧ (∀ c ∈ kv.2.data, P c) := by
  rcases lines with _ | ⟨header, rest⟩
  · intro row hrow; simp [dictReader] at hrow
  · intro row hrow kv hkv
    simp only [dictReader, List.mem_filterMap, List.mem_map] at hrow
    obtain ⟨r0, ⟨line, hline, hr0⟩, hsome⟩ := hrow
    by_cases he : r0.isEmpty
    · rw [if_pos he] at hsome
      cases hsome
    · rw [if_neg he] at hsome
      have hrow_eq : (csvRow header).zip r0 = row := by
        injection hsome
      rw [← hrow_eq] at hkv
      obtain ⟨hk, hv⟩ := List.of_mem_zip hkv
      constructor
      · exact csvRow_pres P header
          (hl header (List.mem_cons_self header rest)) kv.1 hk
      · subst hr0
        exact csvRow_pres P line
          (hl line (List.mem_cons_of_mem header hline)) kv.2 hv

/-- C10: `csv_reader` lower-cases the entire raw payload before parsing,
not only the header: every value in every returned row-mapping is fixed
by lower-casing (it contains no upper-case letter). -/
theorem csv_reader_values_lowercased
    (hammerOut component subcommand comp : String)
    (entities : List (List (String × String)))
    (row : List (String × String)) (kv : String × String)
    (hce : (comp, entities) ∈ csv_reader hammerOut component subcommand)
    (hrow : row ∈ entities) (hkv : kv ∈ row) :
    strLower kv.2 = kv.2 := by
  have hce' : (comp, entities) =
      (component, dictReader (splitLines (strLower hammerOut).data)) := by
    simpa [csv_reader] using hce
  have hent : entities = dictReader (splitLines (strLower hammerOut).data) :=
    congrArg Prod.snd hce'
  subst hent
  have hchars : ∀ c ∈ kv.2.data, lowerChar c = c := by
    have hlines : ∀ line ∈ splitLines (strLower hammerOut).data,
        ∀ c ∈ line, lowerChar c = c :=
      splitLinesAux_pres (fun c => lowerChar c = c)
        (strLower hammerOut).data [] (by simp)
        (strLower_chars_fixed hammerOut)
    exact (dictReader_pres (fun c => lowerChar c = c) _ hlines row hrow
      kv hkv).2
  obtain ⟨k, v⟩ := kv
  simp only at hchars ⊢
  show String.mk (v.data.map lowerChar) = v
  rw [List.map_congr_left hchars, List.map_id']

/-- C10 witness: an upper-case payload value comes back lower-cased. -/
theorem csv_reader_values_lowercased_witness :
    strLower "host1.ab.com" = "host1.ab.com" :=
  csv_reader_values_lowercased "NAME,ID\nHOST1.AB.COM,10" "host" "list"
    "host" [[("name", "host1.ab.com"), ("id", "10")]]
    [("name", "host1.ab.com"), ("id", "10")] ("name", "host1.ab.com")
    (by decide) (by decide) (by decide)

/-- helper: `Char.ofNat` and `Char.toNat` cancel on valid scalars. -/
theorem toNat_ofNat_valid (n : Nat)
    (h : n < 55296 ∨ (57344 ≤ n ∧ n < 1114112)) :
    (Char.ofNat n).toNat = n := by
  unfold Char.ofNat
  rw [dif_pos (show n.isValidChar from h)]
  rfl

/-- helper: characters with different codes differ. -/
theorem char_ne_of_toNat (c d : Char) (h : c.toNat ≠ d.toNat) : c ≠ d :=
  fun he => h (congrArg Char.toNat he)

/-- helper: `skipWs` keeps a non-whitespace head. -/
theorem skipWs_cons_nonws (c : Char) (l : List Char) (h : isWs c = false) :
    skipWs (c :: l) = c :: l := by
  simp [skipWs, List.dropWhile, h]

/-- helper: `skipWs` drops a whitespace head. -/
theorem skipWs_cons_ws (c : Char) (l : List Char) (h : isWs c = true) :
    skipWs (c :: l) = skipWs l := by
  simp [skipWs, List.dropWhile, h]

/-- helper: a leading space does not change what `parseValue` parses. -/
theorem parseValue_ws (fuel : Nat) (l : List Char) :
    parseValue fuel (' ' :: l) = parseValue fuel l := by
  cases fuel with
  | zero => simp only [parseValue]
  | succ f =>
      simp only [parseValue]
      rw [skipWs_cons_ws ' ' l (by decide)]

/-- helper: `hexVal` inverts `hexDigit` on hex digits. -/
theorem hexVal_hexDigit (d : Nat) (hd : d < 16) :
    hexVal (hexDigit d) = some d := by
  unfold hexDigit
  by_cases h : d < 10
  · rw [if_pos h]
    have ht : (Char.ofNat (48 + d)).toNat = 48 + d :=
      toNat_ofNat_valid _ (Or.inl (by omega))
    unfold hexVal
    rw [ht, if_pos (by omega)]
    congr 1
    omega
  · rw [if_neg h]
    have ht : (Char.ofNat (87 + d)).toNat = 87 + d :=
      toNat_ofNat_valid _ (Or.inl (by omega))
    unfold hexVal
    rw [ht, if_neg (by omega), if_pos (by omega)]
    congr 1
    omega

/-- helper: `parseHex4` inverts `toHex4` below `0x10000`. -/
theorem parseHex4_toHex4 (n : Nat) (h : n < 65536) (rest : List Char) :
    parseHex4 (toHex4 n ++ rest) = some (n, rest) := by
  simp only [toHex4, List.cons_append, List.nil_append, parseHex4]
  rw [hexVal_hexDigit _ (by omega), hexVal_hexDigit _ (by omega),
      hexVal_hexDigit _ (by omega), hexVal_hexDigit _ (by omega)]
  simp only [Option.some.injEq, Prod.mk.injEq]
  exact ⟨by omega, trivial⟩

/-- helper: escaping a character emits at least one character. -/
theorem escapeChar_length_pos (c : Char) : 0 < (escapeChar c).length := by
  unfold escapeChar
  split_ifs <;> simp

/-- helper: escaping cannot shrink a string. -/
theorem length_le_flatMap_escape (cs : List Char) :
    cs.length ≤ (cs.flatMap escapeChar).length := by
  induction cs with
  | nil => simp
  | cons c cs ih =>
      simp only [List.flatMap_cons, List.length_append, List.length_cons]
      have := escapeChar_length_pos c
      omega

/-- helper: `dropLit` consumes exactly its literal. -/
theorem dropLit_append (lit rest : List Char) :
    dropLit lit (lit ++ rest) = some rest := by
  induction lit with
  | nil => rfl
  | cons c cs ih =>
      simp only [List.cons_append, dropLit, if_pos rfl]
      exact ih

/-- helper: unfolding equation of `natDec`. -/
theorem natDec_eq (n : Nat) : natDec n =
    if _ : n < 10 then [digitCh n]
    else natDec (n / 10) ++ [digitCh (n % 10)] := by
  rw [natDec]

/-- helper: unfolding equation of `tenPow`. -/
theorem tenPow_eq (n : Nat) : tenPow n =
    if n < 10 then 10 else 10 * tenPow (n / 10) := by
  rw [tenPow]

/-- helper: the code of a decimal digit character. -/
theorem digitCh_toNat (n : Nat) (h : n < 10) : (digitCh n).toNat = 48 + n :=
  toNat_ofNat_valid _ (Or.inl (by omega))

/-- helper: a greedy digit scan stops in front of a non-digit. -/
theorem parseDigitsAux_stop (acc : Nat) (l : List Char)
    (h : notDigitHead l) : parseDigitsAux acc l = (acc, l) := by
  cases l with
  | nil => rfl
  | cons c rest =>
      simp only [notDigitHead] at h
      simp only [parseDigitsAux]
      rw [if_neg (by omega)]

/-- helper: `natDec` produces a digit string whose head is `'0'` only
for zero itself. -/
theorem natDec_shape (n : Nat) : ∃ c cs, natDec n = c :: cs ∧
    48 ≤ c.toNat ∧ c.toNat ≤ 57 ∧ (c.toNat = 48 → n = 0) := by
  induction n using Nat.strong_induction_on with
  | _ n ih =>
      by_cases h : n < 10
      · refine ⟨digitCh n, [], ?_, ?_, ?_, ?_⟩
        · rw [natDec_eq, dif_pos h]
        · rw [digitCh_toNat n h]; omega
        · rw [digitCh_toNat n h]; omega
        · rw [digitCh_toNat n h]; omega
      · obtain ⟨c, cs, hshape, h1, h2, h3⟩ := ih (n / 10) (by omega)
        refine ⟨c, cs ++ [digitCh (n % 10)], ?_, h1, h2, ?_⟩
        · rw [natDec_eq, dif_neg h, hshape, List.cons_append]
        · intro h48
          have := h3 h48
          omega

/-- helper: a greedy digit scan over `natDec n` shifts the accumulator
by the digit count and adds `n`. -/
theorem digits_cont (n : Nat) : ∀ acc rest,
    parseDigitsAux acc (natDec n ++ rest) =
      parseDigitsAux (acc * tenPow n + n) rest := by
  induction n using Nat.strong_induction_on with
  | _ n ih =>
      intro acc rest
      by_cases h : n < 10
      · rw [natDec_eq, dif_pos h, List.singleton_append]
        simp only [parseDigitsAux]
        simp only [digitCh_toNat n h]
        rw [if_pos (by omega), tenPow_eq, if_pos h]
        have harith : acc * 10 + (48 + n - 48) = acc * 10 + n := by omega
        rw [harith]
      · rw [natDec_eq, dif_neg h, List.append_assoc,
            ih (n / 10) (by omega), List.singleton_append]
        simp only [parseDigitsAux]
        simp only [digitCh_toNat (n % 10) (by omega)]
        have htp : tenPow n = 10 * tenPow (n / 10) := by
          rw [tenPow_eq, if_neg h]
        rw [if_pos (by omega), htp]
        have harith : (acc * tenPow (n / 10) + n / 10) * 10 +
            (48 + n % 10 - 48) = acc * (10 * tenPow (n / 10)) + n := by
          generalize tenPow (n / 10) = t
          have hdm := Nat.div_add_mod n 10
          ring_nf
          generalize acc * t = A at *
          omega
        rw [harith]

/-- helper: `parseNatTok` inverts `natDec` when the continuation does
not start with a digit. -/
theorem parseNatTok_natDec (n : Nat) (rest : List Char)
    (hrest : notDigitHead rest) :
    parseNatTok (natDec n ++ rest) = some (n, rest) := by
  obtain ⟨c, cs, hshape, h1, h2, h3⟩ := natDec_shape n
  rw [hshape, List.cons_append]
  simp only [parseNatTok]
  by_cases hz : c = '0'
  · have hc48 : c.toNat = 48 := by rw [hz]; rfl
    have hn0 : n = 0 := h3 hc48
    subst hn0
    have : natDec 0 = [digitCh 0] := by rw [natDec_eq, dif_pos (by omega)]
    rw [this] at hshape
    injection hshape with hc hcs
    rw [if_pos hz, ← hcs]
    rfl
  · have hc48 : ¬c.toNat = 48 := fun hh =>
      hz (by rw [← Char.ofNat_toNat c, hh])
    rw [if_neg hz,
        if_pos (show 49 ≤ c.toNat ∧ c.toNat ≤ 57 by omega)]
    rw [← List.cons_append, ← hshape, digits_cont n 0 rest,
        Nat.zero_mul, Nat.zero_add, parseDigitsAux_stop n rest hrest]

/-- helper: `parseIntTok` inverts `renderInt` when the continuation does
not start with a digit. -/
theorem parseIntTok_renderInt (n : Int) (rest : List Char)
    (hrest : notDigitHead rest) :
    parseIntTok (renderInt n ++ rest) = some (n, rest) := by
  by_cases h : n < 0
  · have hr : renderInt n = '-' :: natDec (-n).toNat := by
      unfold renderInt
      rw [if_pos h]
    rw [hr, List.cons_append]
    simp only [parseIntTok]
    rw [if_pos trivial, parseNatTok_natDec _ rest hrest]
    simp only [Option.some.injEq, Prod.mk.injEq]
    constructor
    · omega
    · trivial
  · have hr : renderInt n = natDec n.toNat := by
      unfold renderInt
      rw [if_neg h]
    obtain ⟨c, cs, hshape, h1, h2, h3⟩ := natDec_shape n.toNat
    rw [hr, hshape, List.cons_append]
    simp only [parseIntTok]
    have hcm : ¬c = '-' := fun hh => by
      have : c.toNat = 45 := by rw [hh]; rfl
      omega
    rw [if_neg hcm, ← List.cons_append, ← hshape,
        parseNatTok_natDec _ rest hrest]
    simp only [Option.some.injEq, Prod.mk.injEq]
    constructor
    · omega
    · trivial

/-- helper: one unfolding of the string scanner at a backslash. -/
theorem parseStrBody_backslash (fuel : Nat) (acc rest : List Char) :
    parseStrBody (fuel + 1) acc ('\\' :: rest) =
      match decodeEsc rest with
      | some (d, rest2) => parseStrBody fuel (d :: acc) rest2
      | none => none := rfl

/-- helper: the string scanner undoes the escaping of one character. -/
theorem parseStr_step (c : Char) (acc tail : List Char) (fuel : Nat) :
    parseStrBody (fuel + 1) acc (escapeChar c ++ tail) =
      parseStrBody fuel (c :: acc) tail := by
  by_cases h1 : c = '"'
  · subst h1; rfl
  by_cases h2 : c = '\\'
  · subst h2; rfl
  by_cases h3 : c.toNat = 8
  · have hc : c = Char.ofNat 8 := by rw [← Char.ofNat_toNat c, h3]
    rw [hc]; rfl
  by_cases h4 : c.toNat = 9
  · have hc : c = Char.ofNat 9 := by rw [← Char.ofNat_toNat c, h4]
    rw [hc]; rfl
  by_cases h5 : c.toNat = 10
  · have hc : c = Char.ofNat 10 := by rw [← Char.ofNat_toNat c, h5]
    rw [hc]; rfl
  by_cases h6 : c.toNat = 12
  · have hc : c = Char.ofNat 12 := by rw [← Char.ofNat_toNat c, h6]
    rw [hc]; rfl
  by_cases h7 : c.toNat = 13
  · have hc : c = Char.ofNat 13 := by rw [← Char.ofNat_toNat c, h7]
    rw [hc]; rfl
  have hv : c.toNat < 55296 ∨ (57344 ≤ c.toNat ∧ c.toNat < 1114112) := c.valid
  by_cases h8 : c.toNat < 32 ∨ 126 < c.toNat
  · by_cases h9 : c.toNat < 65536
    · have hesc : escapeChar c = '\\' :: 'u' :: toHex4 c.toNat := by
        unfold escapeChar
        rw [if_neg h1, if_neg h2, if_neg h3, if_neg h4, if_neg h5,
            if_neg h6, if_neg h7, if_pos h8, if_pos h9]
      rw [hesc]
      simp only [parseStrBody, List.cons_append]
      rw [if_pos trivial]
      have hdec : decodeEsc ('u' :: (toHex4 c.toNat ++ tail)) =
          some (c, tail) := by
        simp only [decodeEsc, reduceIte]
        rw [parseHex4_toHex4 _ h9]
        simp only [decodeEscU]
        rw [if_neg (by decide), if_neg (by decide), if_neg (by decide),
            if_neg (by decide), if_neg (by decide), if_neg (by decide)]
        rw [if_neg (show ¬(55296 ≤ c.toNat ∧ c.toNat ≤ 56319) by omega),
            if_neg (show ¬(56320 ≤ c.toNat ∧ c.toNat ≤ 57343) by omega),
            Char.ofNat_toNat]
        rw [if_neg (by decide), if_neg (by decide)]
      rw [hdec, if_neg (by decide)]
    · have hesc : escapeChar c =
          '\\' :: 'u' :: (toHex4 (55296 + (c.toNat - 65536) / 1024) ++
            ('\\' :: 'u' :: toHex4 (56320 + (c.toNat - 65536) % 1024))) := by
        unfold escapeChar
        rw [if_neg h1, if_neg h2, if_neg h3, if_neg h4, if_neg h5,
            if_neg h6, if_neg h7, if_pos h8, if_neg h9]
        rfl
      have hm : c.toNat - 65536 < 1048576 := by omega
      have hdec : decodeEsc ('u' ::
          ((toHex4 (55296 + (c.toNat - 65536) / 1024) ++
            ('\\' :: 'u' :: toHex4 (56320 + (c.toNat - 65536) % 1024))) ++
              tail)) = some (c, tail) := by
        have hg1 : 55296 ≤ 55296 + (c.toNat - 65536) / 1024 ∧
            55296 + (c.toNat - 65536) / 1024 ≤ 56319 := by
          constructor <;> omega
        have hg2 : 56320 ≤ 56320 + (c.toNat - 65536) % 1024 ∧
            56320 + (c.toNat - 65536) % 1024 ≤ 57343 := by
          constructor <;> omega
        have harith : 65536 +
            ((55296 + (c.toNat - 65536) / 1024) - 55296) * 1024 +
            ((56320 + (c.toNat - 65536) % 1024) - 56320) = c.toNat := by
          omega
        rw [List.append_assoc, List.cons_append, List.cons_append]
        simp only [decodeEsc, reduceIte]
        rw [parseHex4_toHex4 _ (by omega)]
        simp only [decodeEscU]
        rw [if_neg (by decide), if_neg (by decide), if_neg (by decide),
            if_neg (by decide), if_neg (by decide), if_neg (by decide)]
        rw [if_pos hg1]
        simp only [decodeSurrogatePair, reduceIte]
        rw [parseHex4_toHex4 (56320 + (c.toNat - 65536) % 1024) (by omega)]
        simp only [decodeSurrLow]
        rw [if_pos hg2, harith, Char.ofNat_toNat]
        rw [if_neg (by decide), if_neg (by decide),
            if_pos (show True ∧ True from ⟨trivial, trivial⟩)]
      rw [hesc, List.cons_append, List.cons_append,
          parseStrBody_backslash, hdec]
  · have hesc : escapeChar c = [c] := by
      unfold escapeChar
      rw [if_neg h1, if_neg h2, if_neg h3, if_neg h4, if_neg h5,
          if_neg h6, if_neg h7, if_neg h8]
    rw [hesc]
    simp only [List.singleton_append, parseStrBody]
    rw [if_neg h1, if_neg h2, if_neg (by omega)]

/-- helper: the string scanner undoes the escaping of a whole string,
given fuel beyond the number of source characters. -/
theorem parseStr_round (cs : List Char) :
    ∀ fuel acc tail, cs.length < fuel →
      parseStrBody fuel acc (cs.flatMap escapeChar ++ '"' :: tail) =
        some (String.mk (acc.reverse ++ cs), tail) := by
  induction cs with
  | nil =>
      intro fuel acc tail hf
      cases fuel with
      | zero => omega
      | succ f =>
          simp only [List.flatMap_nil, List.nil_append, parseStrBody]
          rw [if_pos trivial]
          simp
  | cons c cs ih =>
      intro fuel acc tail hf
      cases fuel with
      | zero => simp at hf
      | succ f =>
          simp only [List.flatMap_cons, List.append_assoc]
          rw [parseStr_step,
            ih f (c :: acc) tail (by simp at hf ⊢; omega)]
          simp

/-- helper: one step of `parseValue` at positive fuel. -/
theorem parseValue_succ (fuel : Nat) (l : List Char) :
    parseValue (fuel + 1) l = parseValueBody fuel (skipWs l) := by
  rw [parseValue]

/-- helper: one step of `parseArrRest` at positive fuel. -/
theorem parseArrRest_succ (fuel : Nat) (l : List Char) :
    parseArrRest (fuel + 1) l = parseArrRestBody fuel (skipWs l) := by
  rw [parseArrRest]

/-- helper: one step of `parseObjRest` at positive fuel. -/
theorem parseObjRest_succ (fuel : Nat) (l : List Char) :
    parseObjRest (fuel + 1) l = parseObjRestBody fuel (skipWs l) := by
  rw [parseObjRest]

/-- helper: one step of `parseObjEntry` at positive fuel. -/
theorem parseObjEntry_succ (fuel : Nat) (l : List Char) :
    parseObjEntry (fuel + 1) l = parseObjEntryBody fuel (skipWs l) := by
  rw [parseObjEntry]

/-- helper: a character outside the whitespace codes is not JSON
whitespace. -/
theorem isWs_false_of_toNat (c : Char)
    (h : ¬(c.toNat = 32 ∨ c.toNat = 9 ∨ c.toNat = 10 ∨ c.toNat = 13)) :
    isWs c = false := by
  unfold isWs
  simp only [decide_eq_false_iff_not]
  rintro (h1 | h1 | h1 | h1) <;> subst h1 <;> exact h (by decide)

/-- helper: an integer rendering starts with a minus sign or a digit. -/
theorem renderInt_head (n : Int) : ∃ c cs, renderInt n = c :: cs ∧
    45 ≤ c.toNat ∧ c.toNat ≤ 57 ∧ c.toNat ≠ 46 ∧ c.toNat ≠ 47 := by
  by_cases h : n < 0
  · refine ⟨'-', natDec (-n).toNat, ?_, by decide, by decide, by decide,
      by decide⟩
    unfold renderInt
    rw [if_pos h]
  · obtain ⟨c, cs, hshape, h1, h2, _⟩ := natDec_shape n.toNat
    refine ⟨c, cs, ?_, by omega, by omega, by omega, by omega⟩
    unfold renderInt
    rw [if_neg h, hshape]

/-- helper: a value rendering starts with a character that is not
whitespace and not a closing bracket. -/
theorem renderVal_head (v : JVal) : ∃ c cs, renderVal v = c :: cs ∧
    34 ≤ c.toNat ∧ c.toNat ≤ 123 ∧ c.toNat ≠ 93 ∧ c.toNat ≠ 125 := by
  cases v with
  | jnull => exact ⟨'n', _, rfl, by decide, by decide, by decide, by decide⟩
  | jbool b =>
      cases b with
      | true =>
          exact ⟨'t', _, rfl, by decide, by decide, by decide, by decide⟩
      | false =>
          exact ⟨'f', _, rfl, by decide, by decide, by decide, by decide⟩
  | jnum n =>
      obtain ⟨c, cs, hshape, h1, h2, h3, h4⟩ := renderInt_head n
      exact ⟨c, cs, hshape, by omega, by omega, by omega, by omega⟩
  | jstr s =>
      refine ⟨'"', s.data.flatMap escapeChar ++ ['"'], ?_, by decide,
        by decide, by decide, by decide⟩
      simp only [renderVal, renderStr]
  | jarr vs =>
      cases vs with
      | nil =>
          exact ⟨'[', _, rfl, by decide, by decide, by decide, by decide⟩
      | cons v' vs' =>
          exact ⟨'[', _, rfl, by decide, by decide, by decide, by decide⟩
  | jobj kvs =>
      cases kvs with
      | nil =>
          exact ⟨'{', _, rfl, by decide, by decide, by decide, by decide⟩
      | cons k v' kvs' =>
          exact ⟨'{', _, rfl, by decide, by decide, by decide, by decide⟩

/-- helper: the fuel needed for a value is positive. -/
theorem fsizeV_pos (v : JVal) : 1 ≤ fsizeV v := by
  cases v with
  | jnull => exact le_refl 1
  | jbool b => exact le_refl 1
  | jnum n => exact le_refl 1
  | jstr s => exact le_refl 1
  | jarr vs => cases vs <;> simp [fsizeV]
  | jobj kvs => cases kvs <;> simp [fsizeO, fsizeV]

/-- helper: the structural measure of a value is positive. -/
theorem msizeV_pos (v : JVal) : 1 ≤ msizeV v := by
  cases v <;> simp only [msizeV] <;> omega

/-- helper: the structural measure of an array tail is positive. -/
theorem msizeA_pos (vs : JArr) : 1 ≤ msizeA vs := by
  cases vs <;> simp only [msizeA] <;> omega

/-- helper: the structural measure of an object tail is positive. -/
theorem msizeO_pos (kvs : JObj) : 1 ≤ msizeO kvs := by
  cases kvs <;> simp only [msizeO] <;> omega

/-- helper: a rendered value absorbs no leading whitespace skip. -/
theorem skipWs_renderVal (v : JVal) (rest : List Char) :
    skipWs (renderVal v ++ rest) = renderVal v ++ rest := by
  obtain ⟨c, cs, hshape, h1, h2, _, _⟩ := renderVal_head v
  rw [hshape, List.cons_append,
    skipWs_cons_nonws _ _ (isWs_false_of_toNat c (by omega))]

/-- helper: an array continuation starts with a comma or the closing
bracket, never a digit. -/
theorem notDigitHead_arr (vs : JArr) (rest : List Char) :
    notDigitHead (renderArr vs ++ ']' :: rest) := by
  cases vs with
  | nil =>
      simp only [renderArr, List.nil_append, notDigitHead]
      decide
  | cons v vs =>
      simp only [renderArr, List.cons_append, notDigitHead]
      decide

/-- helper: an object continuation starts with a comma or the closing
brace, never a digit. -/
theorem notDigitHead_obj (kvs : JObj) (rest : List Char) :
    notDigitHead (renderObj kvs ++ '}' :: rest) := by
  cases kvs with
  | nil =>
      simp only [renderObj, List.nil_append, notDigitHead]
      decide
  | cons k v kvs =>
      simp only [renderObj, List.cons_append, notDigitHead]
      decide

/-- helper: the fuel `parseValue` hands to the string scanner — one more
than the remaining input length — is always sufficient. -/
theorem parseStrBody_renderStr (s : String) (tail : List Char) :
    parseStrBody ((s.data.flatMap escapeChar ++ '"' :: tail).length + 1) []
        (s.data.flatMap escapeChar ++ '"' :: tail) = some (s, tail) := by
  rw [parseStr_round s.data _ [] tail
    (by
      have := length_le_flatMap_escape s.data
      simp only [List.length_append, List.length_cons]
      omega)]
  rcases s with ⟨d⟩
  simp

/-- helper: the parser inverts the renderer on `null`. -/
theorem parses_jnull : ParsesVal .jnull := by
  intro fuel rest hf _
  simp only [fsizeV] at hf
  obtain ⟨f, rfl⟩ : ∃ f, fuel = f + 1 := ⟨fuel - 1, by omega⟩
  rw [parseValue_succ]
  simp only [renderVal]
  rw [List.cons_append, skipWs_cons_nonws _ _ (by decide)]
  simp only [parseValueBody]
  rw [dropLit_append, if_pos trivial]

/-- helper: the parser inverts the renderer on booleans. -/
theorem parses_jbool (b : Bool) : ParsesVal (.jbool b) := by
  intro fuel rest hf _
  simp only [fsizeV] at hf
  obtain ⟨f, rfl⟩ : ∃ f, fuel = f + 1 := ⟨fuel - 1, by omega⟩
  rw [parseValue_succ]
  cases b with
  | true =>
      simp only [renderVal]
      rw [List.cons_append, skipWs_cons_nonws _ _ (by decide)]
      simp only [parseValueBody]
      rw [dropLit_append, if_neg (by decide), if_pos trivial]
  | false =>
      simp only [renderVal]
      rw [List.cons_append, skipWs_cons_nonws _ _ (by decide)]
      simp only [parseValueBody]
      rw [dropLit_append, if_neg (by decide), if_neg (by decide),
          if_pos trivial]

/-- helper: the parser inverts the renderer on integers. -/
theorem parses_jnum (n : Int) : ParsesVal (.jnum n) := by
  intro fuel rest hf hrest
  simp only [fsizeV] at hf
  obtain ⟨f, rfl⟩ : ∃ f, fuel = f + 1 := ⟨fuel - 1, by omega⟩
  rw [parseValue_succ, skipWs_renderVal]
  simp only [renderVal]
  obtain ⟨c, cs, hshape, h45, h57, _, _⟩ := renderInt_head n
  rw [hshape, List.cons_append]
  simp only [parseValueBody]
  rw [if_neg (char_ne_of_toNat c 'n'
        (by rw [show Char.toNat 'n' = 110 from rfl]; omega)),
      if_neg (char_ne_of_toNat c 't'
        (by rw [show Char.toNat 't' = 116 from rfl]; omega)),
      if_neg (char_ne_of_toNat c 'f'
        (by rw [show Char.toNat 'f' = 102 from rfl]; omega)),
      if_neg (char_ne_of_toNat c '"'
        (by rw [show Char.toNat '"' = 34 from rfl]; omega)),
      if_neg (char_ne_of_toNat c '['
        (by rw [show Char.toNat '[' = 91 from rfl]; omega)),
      if_neg (char_ne_of_toNat c '{'
        (by rw [show Char.toNat '{' = 123 from rfl]; omega))]
  rw [← List.cons_append, ← hshape]
  simp only [parseIntTok_renderInt n rest hrest]

/-- helper: the parser inverts the renderer on strings. -/
theorem parses_jstr (s : String) : ParsesVal (.jstr s) := by
  intro fuel rest hf _
  simp only [fsizeV] at hf
  obtain ⟨f, rfl⟩ : ∃ f, fuel = f + 1 := ⟨fuel - 1, by omega⟩
  rw [parseValue_succ]
  simp only [renderVal, renderStr]
  rw [List.cons_append, skipWs_cons_nonws _ _ (by decide)]
  simp only [parseValueBody]
  rw [if_neg (by decide), if_neg (by decide), if_neg (by decide),
      if_pos trivial, List.append_assoc, List.singleton_append]
  simp only [parseStrBody_renderStr s rest]

/-- helper: the parser inverts the renderer on the empty array. -/
theorem parses_jarr_nil : ParsesVal (.jarr .nil) := by
  intro fuel rest hf _
  simp only [fsizeV] at hf
  obtain ⟨f, rfl⟩ : ∃ f, fuel = f + 1 := ⟨fuel - 1, by omega⟩
  rw [parseValue_succ]
  simp only [renderVal]
  rw [List.cons_append, skipWs_cons_nonws _ _ (by decide)]
  simp only [parseValueBody]
  rw [if_neg (by decide), if_neg (by decide), if_neg (by decide),
      if_neg (by decide), if_pos trivial, List.singleton_append,
      skipWs_cons_nonws _ _ (by decide)]
  simp only [parseArrHead]
  rw [if_pos trivial]

/-- helper: the parser inverts the renderer on the empty object. -/
theorem parses_jobj_nil : ParsesVal (.jobj .nil) := by
  intro fuel rest hf _
  simp only [fsizeV] at hf
  obtain ⟨f, rfl⟩ : ∃ f, fuel = f + 1 := ⟨fuel - 1, by omega⟩
  rw [parseValue_succ]
  simp only [renderVal]
  rw [List.cons_append, skipWs_cons_nonws _ _ (by decide)]
  simp only [parseValueBody]
  rw [if_neg (by decide), if_neg (by decide), if_neg (by decide),
      if_neg (by decide), if_neg (by decide), if_pos trivial,
      List.singleton_append, skipWs_cons_nonws _ _ (by decide)]
  simp only [parseObjHead]
  rw [if_pos trivial]

/-- helper: the parser closes an empty array tail at `]`. -/
theorem parsesArr_nil : ParsesArr .nil := by
  intro fuel rest hf
  simp only [fsizeA] at hf
  obtain ⟨f, rfl⟩ : ∃ f, fuel = f + 1 := ⟨fuel - 1, by omega⟩
  rw [parseArrRest_succ]
  simp only [renderArr]
  rw [List.nil_append, skipWs_cons_nonws _ _ (by decide)]
  simp only [parseArrRestBody]
  rw [if_pos trivial]

/-- helper: the parser consumes `, element` of an array tail. -/
theorem parsesArr_cons (v : JVal) (vs : JArr)
    (hv : ParsesVal v) (hvs : ParsesArr vs) : ParsesArr (.cons v vs) := by
  intro fuel rest hf
  simp only [fsizeA] at hf
  obtain ⟨f, rfl⟩ : ∃ f, fuel = f + 1 := ⟨fuel - 1, by omega⟩
  rw [parseArrRest_succ]
  simp only [renderArr]
  rw [List.cons_append, List.cons_append,
      skipWs_cons_nonws _ _ (by decide)]
  simp only [parseArrRestBody]
  rw [if_neg (by decide), if_pos trivial, parseValue_ws,
      List.append_assoc]
  simp only [hv f (renderArr vs ++ ']' :: rest) (by omega)
    (notDigitHead_arr vs rest)]
  simp only [hvs f rest (by omega)]

/-- helper: the parser inverts the renderer on a nonempty array. -/
theorem parses_jarr_cons (v : JVal) (vs : JArr)
    (hv : ParsesVal v) (hvs : ParsesArr vs) :
    ParsesVal (.jarr (.cons v vs)) := by
  intro fuel rest hf _
  simp only [fsizeV] at hf
  obtain ⟨f, rfl⟩ : ∃ f, fuel = f + 1 := ⟨fuel - 1, by omega⟩
  rw [parseValue_succ]
  simp only [renderVal]
  rw [List.cons_append, skipWs_cons_nonws _ _ (by decide)]
  simp only [parseValueBody]
  rw [if_neg (by decide), if_neg (by decide), if_neg (by decide),
      if_neg (by decide), if_pos trivial, List.append_assoc,
      List.append_assoc, List.singleton_append, skipWs_renderVal v]
  obtain ⟨c, cs, hshape, h34, h123, h93, h125⟩ := renderVal_head v
  rw [hshape, List.cons_append]
  simp only [parseArrHead]
  rw [if_neg (char_ne_of_toNat c ']'
        (by rw [show Char.toNat ']' = 93 from rfl]; omega)),
      ← List.cons_append, ← hshape]
  simp only [hv f (renderArr vs ++ ']' :: rest) (by omega)
    (notDigitHead_arr vs rest)]
  simp only [hvs f rest (by omega)]

/-- helper: the parser closes an empty object tail at the brace. -/
theorem parsesObj_nil : ParsesObj .nil := by
  intro fuel rest hf
  simp only [fsizeO] at hf
  obtain ⟨f, rfl⟩ : ∃ f, fuel = f + 1 := ⟨fuel - 1, by omega⟩
  rw [parseObjRest_succ]
  simp only [renderObj]
  rw [List.nil_append, skipWs_cons_nonws _ _ (by decide)]
  simp only [parseObjRestBody]
  rw [if_pos trivial]

/-- helper: the parser consumes one rendered `"key": value` entry. -/
theorem parse_entry (k : String) (v : JVal) (hv : ParsesVal v) :
    ∀ fuel rest, fsizeV v + 1 ≤ fuel → notDigitHead rest →
      parseObjEntry fuel
          (renderStr k ++ (':' :: ' ' :: (renderVal v ++ rest))) =
        some (k, v, rest) := by
  intro fuel rest hf hrest
  obtain ⟨f, rfl⟩ : ∃ f, fuel = f + 1 := ⟨fuel - 1, by omega⟩
  rw [parseObjEntry_succ]
  have hrs : renderStr k = '"' :: (k.data.flatMap escapeChar ++ ['"']) := by
    simp only [renderStr]
  rw [hrs, List.cons_append, skipWs_cons_nonws _ _ (by decide)]
  simp only [parseObjEntryBody]
  rw [if_pos trivial, List.append_assoc, List.singleton_append]
  simp only [parseStrBody_renderStr k (':' :: ' ' :: (renderVal v ++ rest))]
  rw [skipWs_cons_nonws _ _ (by decide)]
  simp only [parseObjEntryColon]
  rw [if_pos trivial, parseValue_ws]
  simp only [hv f rest (by omega) hrest]

/-- helper: the parser consumes `, "key": value` of an object tail. -/
theorem parsesObj_cons (k : String) (v : JVal) (kvs : JObj)
    (hv : ParsesVal v) (hkvs : ParsesObj kvs) :
    ParsesObj (.cons k v kvs) := by
  intro fuel rest hf
  simp only [fsizeO] at hf
  obtain ⟨f, rfl⟩ : ∃ f, fuel = f + 1 := ⟨fuel - 1, by omega⟩
  rw [parseObjRest_succ]
  simp only [renderObj]
  rw [List.cons_append, List.cons_append,
      skipWs_cons_nonws _ _ (by decide)]
  simp only [parseObjRestBody]
  rw [if_neg (by decide), if_pos trivial]
  rw [show ' ' :: ((renderStr k ++ ':' :: ' ' :: renderVal v ++
        renderObj kvs) ++ '}' :: rest) =
      ' ' :: (renderStr k ++ (':' :: ' ' :: (renderVal v ++
        (renderObj kvs ++ '}' :: rest)))) from by
    simp [List.append_assoc]]
  rw [show parseObjEntry f (' ' :: (renderStr k ++ (':' :: ' ' ::
        (renderVal v ++ (renderObj kvs ++ '}' :: rest))))) =
      parseObjEntry f (renderStr k ++ (':' :: ' ' ::
        (renderVal v ++ (renderObj kvs ++ '}' :: rest)))) from by
    cases f with
    | zero => simp only [parseObjEntry]
    | succ f2 =>
        rw [parseObjEntry_succ, parseObjEntry_succ,
          skipWs_cons_ws ' ' _ (by decide)]]
  simp only [parse_entry k v hv f (renderObj kvs ++ '}' :: rest)
    (by omega) (notDigitHead_obj kvs rest)]
  simp only [hkvs f rest (by omega)]

/-- helper: the parser inverts the renderer on a nonempty object. -/
theorem parses_jobj_cons (k : String) (v : JVal) (kvs : JObj)
    (hv : ParsesVal v) (hkvs : ParsesObj kvs) :
    ParsesVal (.jobj (.cons k v kvs)) := by
  intro fuel rest hf _
  simp only [fsizeV] at hf
  obtain ⟨f, rfl⟩ : ∃ f, fuel = f + 1 := ⟨fuel - 1, by omega⟩
  rw [parseValue_succ]
  simp only [renderVal]
  rw [List.cons_append, skipWs_cons_nonws _ _ (by decide)]
  simp only [parseValueBody]
  rw [if_neg (by decide), if_neg (by decide), if_neg (by decide),
      if_neg (by decide), if_neg (by decide), if_pos trivial]
  rw [show skipWs ((renderStr k ++ ':' :: ' ' :: renderVal v ++
        renderObj kvs ++ ['}']) ++ rest) =
      renderStr k ++ (':' :: ' ' :: (renderVal v ++
        (renderObj kvs ++ '}' :: rest))) from by
    have hrs : renderStr k =
        '"' :: (k.data.flatMap escapeChar ++ ['"']) := by
      simp only [renderStr]
    rw [show (renderStr k ++ ':' :: ' ' :: renderVal v ++
          renderObj kvs ++ ['}']) ++ rest =
        renderStr k ++ (':' :: ' ' :: (renderVal v ++
          (renderObj kvs ++ '}' :: rest))) from by
      simp [List.append_assoc]]
    rw [hrs, List.cons_append, skipWs_cons_nonws _ _ (by decide),
      ← List.cons_append, ← hrs]]
  have hrs : renderStr k = '"' :: (k.data.flatMap escapeChar ++ ['"']) := by
    simp only [renderStr]
  rw [hrs, List.cons_append]
  simp only [parseObjHead]
  rw [if_neg (by decide), ← List.cons_append, ← hrs]
  simp only [parse_entry k v hv f (renderObj kvs ++ '}' :: rest)
    (by omega) (notDigitHead_obj kvs rest)]
  simp only [hkvs f rest (by omega)]

/-- helper: the parser inverts the renderer on every value, array tail
and object tail, by strong induction on the structural measure. -/
theorem parses_all (N : Nat) :
    (∀ v, msizeV v ≤ N → ParsesVal v) ∧
    (∀ vs, msizeA vs ≤ N → ParsesArr vs) ∧
    (∀ kvs, msizeO kvs ≤ N → ParsesObj kvs) := by
  induction N with
  | zero =>
      refine ⟨fun v hv => ?_, fun vs hvs => ?_, fun kvs hk => ?_⟩
      · have := msizeV_pos v; omega
      · have := msizeA_pos vs; omega
      · have := msizeO_pos kvs; omega
  | succ N ih =>
      obtain ⟨ihV, ihA, ihO⟩ := ih
      refine ⟨fun v hv => ?_, fun vs hvs => ?_, fun kvs hk => ?_⟩
      · cases v with
        | jnull => exact parses_jnull
        | jbool b => exact parses_jbool b
        | jnum n => exact parses_jnum n
        | jstr s => exact parses_jstr s
        | jarr vs =>
            cases vs with
            | nil => exact parses_jarr_nil
            | cons v' vs' =>
                simp only [msizeV, msizeA] at hv
                exact parses_jarr_cons v' vs'
                  (ihV v' (by omega)) (ihA vs' (by omega))
        | jobj kvs =>
            cases kvs with
            | nil => exact parses_jobj_nil
            | cons k v' kvs' =>
                simp only [msizeV, msizeO] at hv
                exact parses_jobj_cons k v' kvs'
                  (ihV v' (by omega)) (ihO kvs' (by omega))
      · cases vs with
        | nil => exact parsesArr_nil
        | cons v' vs' =>
            simp only [msizeA] at hvs
            exact parsesArr_cons v' vs'
              (ihV v' (by omega)) (ihA vs' (by omega))
      · cases kvs with
        | nil => exact parsesObj_nil
        | cons k v' kvs' =>
            simp only [msizeO] at hk
            exact parsesObj_cons k v' kvs'
              (ihV v' (by omega)) (ihO kvs' (by omega))

/-- helper: the parser inverts the renderer on every value. -/
theorem parsesVal_all (v : JVal) : ParsesVal v :=
  (parses_all (msizeV v)).1 v le_rfl

/-- helper: the fuel a rendering needs is bounded by its length, so the
fuel `loads` provides is always sufficient. -/
theorem fsize_le_render (N : Nat) :
    (∀ v, msizeV v ≤ N → fsizeV v ≤ (renderVal v).length) ∧
    (∀ vs, msizeA vs ≤ N → fsizeA vs ≤ (renderArr vs).length + 1) ∧
    (∀ kvs, msizeO kvs ≤ N → fsizeO kvs ≤ (renderObj kvs).length + 1) := by
  induction N with
  | zero =>
      refine ⟨fun v hv => ?_, fun vs hvs => ?_, fun kvs hk => ?_⟩
      · have := msizeV_pos v; omega
      · have := msizeA_pos vs; omega
      · have := msizeO_pos kvs; omega
  | succ N ih =>
      obtain ⟨ihV, ihA, ihO⟩ := ih
      refine ⟨fun v hv => ?_, fun vs hvs => ?_, fun kvs hk => ?_⟩
      · cases v with
        | jnull =>
            simp only [fsizeV, renderVal, List.length_cons,
              List.length_nil]
            omega
        | jbool b =>
            cases b <;>
              · simp only [fsizeV, renderVal, List.length_cons,
                  List.length_nil]
                omega
        | jnum n =>
            obtain ⟨c, cs, hshape, _, _, _, _⟩ := renderInt_head n
            simp only [fsizeV, renderVal, hshape, List.length_cons]
            omega
        | jstr s =>
            simp only [fsizeV, renderVal, renderStr, List.length_cons]
            omega
        | jarr vs =>
            cases vs with
            | nil =>
                simp only [fsizeV, renderVal, List.length_cons,
                  List.length_nil]
                omega
            | cons v' vs' =>
                simp only [msizeV, msizeA] at hv
                have h1 := ihV v' (by omega)
                have h2 := ihA vs' (by omega)
                simp only [fsizeV, renderVal, List.length_cons,
                  List.length_append, List.length_nil]
                omega
        | jobj kvs =>
            cases kvs with
            | nil =>
                simp only [fsizeV, renderVal, List.length_cons,
                  List.length_nil]
                omega
            | cons k v' kvs' =>
                simp only [msizeV, msizeO] at hv
                have h1 := ihV v' (by omega)
                have h2 := ihO kvs' (by omega)
                simp only [fsizeV, renderVal, List.length_cons,
                  List.length_append, List.length_nil]
                omega
      · cases vs with
        | nil =>
            simp only [fsizeA, renderArr, List.length_nil]
            omega
        | cons v' vs' =>
            simp only [msizeA] at hvs
            have h1 := ihV v' (by omega)
            have h2 := ihA vs' (by omega)
            simp only [fsizeA, renderArr, List.length_cons,
              List.length_append]
            omega
      · cases kvs with
        | nil =>
            simp only [fsizeO, renderObj, List.length_nil]
            omega
        | cons k v' kvs' =>
            simp only [msizeO] at hk
            have h1 := ihV v' (by omega)
            have h2 := ihO kvs' (by omega)
            simp only [fsizeO, renderObj, List.length_cons,
              List.length_append]
            omega

/-- helper: `loads` inverts the renderer on every value. -/
theorem loads_render (v : JVal) : loads (String.mk (renderVal v)) = some v := by
  unfold loads
  have hdata : (String.mk (renderVal v)).data = renderVal v := rfl
  rw [hdata]
  have hb := (fsize_le_render (msizeV v)).1 v le_rfl
  have h1 : parseValue ((renderVal v).length + 1) (renderVal v ++ []) =
      some (v, []) :=
    parsesVal_all v ((renderVal v).length + 1) [] (by omega) trivial
  rw [List.append_nil] at h1
  simp only [h1]
  simp [skipWs]

/-- C6: for every JSON-serializable mapping `d` — in particular the
mapping `{"a": 1, "b": [1, 2]}` — writing it with `create_setup_dict`
and reading it back with `get_setup_data` from the same `product_setup`
file returns a mapping equal to `d`. -/
theorem setup_dict_roundtrip (d : JObj) (fs : Option String) :
    get_setup_data (create_setup_dict d fs) = .ok (.jobj d) ∧
      get_setup_data (create_setup_dict exampleSetup none) =
        .ok (.jobj exampleSetup) := by
  constructor
  · unfold create_setup_dict get_setup_data
    simp only [loads_render]
  · unfold create_setup_dict get_setup_data
    simp only [loads_render]

end Tools
